import Mathlib

/-!
Shallow embedding of `lib/DSA/DSCallGraph.cpp` (poolalloc call-graph core).

Procedures (`llvm::Function*`) and call sites (`llvm::CallSite`) are modelled
as opaque `Nat` identities.  `std::set` becomes `Finset Nat`; a `std::map`
becomes a pair of a key set (`Finset Nat`) and a total value function that is
read only through `mget`, which returns `∅` off the key set, matching the fact
that the C++ code only ever reads entries that exist (or default-constructs
them through `operator[]`, which `mget`'s `∅` default reproduces).

The recursive Tarjan walk `tarjan_rec` is embedded with an explicit fuel
parameter; running out of fuel is a distinguished error `TErr.fuel` that the
C++ code (whose recursion always terminates) never exhibits, and all theorems
about completed runs are stated for `.ok` results.  Each C++ `assert` is
embedded as a distinguished `TErr` error value, so an aborted construction is
an `Except.error` and a completed one an `Except.ok`.
-/

set_option maxHeartbeats 1000000

namespace PoolAlloc

/-- Modelled from the spec: a minimal model of the host representation's types
(§6 external interfaces): a type is a pointer type, a function type (callable
signature: variadic flag, return type, parameter types) or some other scalar
type.  Only pointer-ness and callability are consulted by the classifier. -/
inductive LLVMType : Type where
  | pointer (elem : LLVMType)
  | function (varArg : Bool) (ret : LLVMType) (params : List LLVMType)
  | scalar

/-- llvm::Type::isPointerTy. -/
def LLVMType.isPointerTy : LLVMType → Bool
  | .pointer _ => true
  | _ => false

/-- Modelled from the spec: a procedure's declared signature (return type,
parameter types, variadic flag), i.e. `llvm::FunctionType`. -/
structure FnTy where
  varArg : Bool
  ret : LLVMType
  params : List LLVMType

/-- static bool `_hasPointers(const llvm::FunctionType* T)` (DSCallGraph.cpp
lines 23-30): variadic, or pointer return, or some pointer parameter. -/
def hasPointersFT (T : FnTy) : Bool :=
  if T.varArg then true
  else if T.ret.isPointerTy then true
  else T.params.any (fun p => p.isPointerTy)

/-- Modelled from the spec: what the classifier can see of a call site — the
declared signature of the statically-known callee when one exists, and the
static type of the called value. -/
structure CallSiteSig where
  calledFunction : Option FnTy
  calledValueType : LLVMType

/-- DSCallGraph::hasPointers(const llvm::Function*) (lines 32-34). -/
def hasPointersF (F : FnTy) : Bool := hasPointersFT F

/-- DSCallGraph::hasPointers(llvm::CallSite&) (lines 36-45).  The
`cast<FunctionType>` on a value whose (pointer-stripped) static type is not a
function type is a host-representation error; it is modelled as `none`. -/
def hasPointersCS (CS : CallSiteSig) : Option Bool :=
  match CS.calledFunction with
  | some F => some (hasPointersF F)
  | none =>
    match (match CS.calledValueType with
           | .pointer e => e
           | t => t) with
    | .function va r ps => some (hasPointersFT ⟨va, r, ps⟩)
    | _ => none

/-- Modelled from the spec: the static function type of the called value —
the called value's type with one level of pointer indirection stripped,
provided the result is a callable signature (§4.1). -/
def fnSigOfValue (t : LLVMType) : Option FnTy :=
  match (match t with
         | .pointer e => e
         | t' => t') with
  | .function va r ps => some ⟨va, r, ps⟩
  | _ => none

/-- The DSCallGraph store: `SimpleCallees` (caller → callee set) and
`ActualCallees` (call site → callee set).  Each `std::map` is a key set plus
a value function read through `mget`. -/
@[ext]
structure CGStore where
  simpleKeys : Finset Nat
  simpleVal : Nat → Finset Nat
  actualKeys : Finset Nat
  actualVal : Nat → Finset Nat

/-- A default-constructed DSCallGraph: both maps empty. -/
def emptyStore : CGStore := ⟨∅, fun _ => ∅, ∅, fun _ => ∅⟩

/-- The members of a finite set of identities enumerated in increasing order:
the iteration order of a `std::map` / `std::set` keyed by identities. -/
def keyList (K : Finset Nat) : List Nat :=
  (List.range (K.sup id + 1)).filter (fun x => decide (x ∈ K))

/-- Read a map entry: the stored set for a present key, `∅` for an absent one
(the value a fresh `std::set` default-constructed by `operator[]` would
have). -/
def mget (K : Finset Nat) (V : Nat → Finset Nat) (k : Nat) : Finset Nat :=
  if k ∈ K then V k else ∅

/-- Point update of a map's value function. -/
def upd (V : Nat → Finset Nat) (k : Nat) (v : Finset Nat) : Nat → Finset Nat :=
  fun x => if x = k then v else V x

/-- Modelled from the spec: the header's flat-callee view (§4.2 query
accessors) — the simple-callee set of a caller, empty for an unknown key. -/
def CGStore.simpleAt (st : CGStore) (f : Nat) : Finset Nat :=
  mget st.simpleKeys st.simpleVal f

/-- Modelled from the spec: the per-call-site actual-callee view (§4.2). -/
def CGStore.actualAt (st : CGStore) (s : Nat) : Finset Nat :=
  mget st.actualKeys st.actualVal s

/-- DSCallGraph::insert(llvm::CallSite CS, const llvm::Function* F)
(lines 209-217).  `site` is the call site's identity and `caller` is
`CS.getInstruction()->getParent()->getParent()`, the enclosing procedure.
`SimpleCallees[caller];` touches the caller's entry; when `F` is non-null the
edge is added to both maps.  Note that the resolved callee `F` is *not* made
a key of `SimpleCallees`. -/
def DSCallGraph.insert (st : CGStore) (site caller : Nat) (F : Option Nat) :
    CGStore :=
  let sk := Insert.insert caller st.simpleKeys
  let sv := upd st.simpleVal caller (mget st.simpleKeys st.simpleVal caller)
  match F with
  | none => { st with simpleKeys := sk, simpleVal := sv }
  | some f =>
      { simpleKeys := sk,
        simpleVal := upd sv caller (Insert.insert f (mget sk sv caller)),
        actualKeys := Insert.insert site st.actualKeys,
        actualVal := upd st.actualVal site
          (Insert.insert f (mget st.actualKeys st.actualVal site)) }

/-- DSCallGraph::insureEntry(const llvm::Function* F) (lines 219-221):
`SimpleCallees[F];` — touch the entry, adding an empty set if absent. -/
def DSCallGraph.insureEntry (st : CGStore) (F : Nat) : CGStore :=
  { st with simpleKeys := Insert.insert F st.simpleKeys,
            simpleVal := upd st.simpleVal F (mget st.simpleKeys st.simpleVal F) }

/-- DSCallGraph::buildRoots (lines 159-171): known callers minus the union of
all callee sets of the simple map. -/
def DSCallGraph.buildRoots (st : CGStore) : Finset Nat :=
  st.simpleKeys \ st.simpleKeys.biUnion st.simpleAt

/-- Modelled from the spec: `llvm::EquivalenceClasses` (the union-find
partition of §3/§9, an external collaborator).  `dom` is the list of inserted
members in insertion order (membership is all the C++ code observes of it;
the order is bookkeeping of the model), and `l` is the leader lookup,
defaulting to the identity on never-unioned elements. -/
structure EC where
  dom : List Nat
  l : Nat → Nat

/-- An empty partition. -/
def EC.empty : EC := ⟨[], id⟩

/-- EquivalenceClasses::insert: register a member, a no-op when present. -/
def EC.insert (e : EC) (x : Nat) : EC :=
  if x ∈ e.dom then e else ⟨e.dom ++ [x], e.l⟩

/-- EquivalenceClasses::unionSets(a, b): merge b's class into a's class; the
leader of the merged class is a's leader (the C++ asserts at lines 100-101
rely on exactly this orientation). -/
def EC.union (e : EC) (a b : Nat) : EC :=
  ⟨e.dom, fun x => if e.l x = e.l b then e.l a else e.l x⟩

/-- The fatal conditions of the construction: each C++ `assert` becomes a
distinguished error, plus `fuel` for the embedding's artificial fuel bound. -/
inductive TErr : Type where
  | revisit
  | postcond
  | noLeader
  | externLeader
  | sccAssert
  | fuel
deriving DecidableEq

/-- The mutable state threaded through `tarjan_rec`: the explicit visitation
stack (head = top), the discovery-index counter `NextID`, the discovery-index
map `ValMap`, and the equivalence classes `SCCs`. -/
structure TState where
  stack : List Nat
  nextID : Nat
  valMap : Nat → Option Nat
  ecs : EC

/-- Point update of the discovery-index map. -/
def updO (m : Nat → Option Nat) (k v : Nat) : Nat → Option Nat :=
  fun x => if x = k then some v else m x

/-- The do-while pop loop of the non-trivial-component branch (lines 78-86):
pop until `F` inclusive, collecting `microSCC` in pop order and remembering
the first popped node that is not declaration-only.  Returns (microSCC,
remaining stack, leader candidate). -/
def popLoop (d : Nat → Bool) (F : Nat) :
    List Nat → List Nat → Option Nat → (List Nat × List Nat × Option Nat)
  | [], acc, ldr => (acc.reverse, [], ldr)
  | NF :: rest, acc, ldr =>
      let ldr' := if ldr.isNone && !(d NF) then some NF else ldr
      if NF = F then ((NF :: acc).reverse, rest, ldr')
      else popLoop d F rest (NF :: acc) ldr'

/-- The union loop of lines 94-102: for each popped member, insert it, look up
its leader `Temp`, union it under `Leader`, and check the two asserts of
lines 100-101 (`sccAssert` on failure). -/
def unionAll (L : Nat) : List Nat → EC → Except TErr EC
  | [], e => .ok e
  | m :: ms, e =>
      let e1 := e.insert m
      let t := e1.l m
      let e2 := e1.union L t
      if e2.l L = L ∧ e2.l t = L then unionAll L ms e2 else .error .sccAssert

/-- The tail of tarjan_rec after the callee loop (lines 67-105): check
`assert(ValMap[F] == MyID)`, return early when `F` is part of a larger
component, otherwise pop the finished component — the singleton branch
(lines 72-75) or the non-trivial branch with leader selection and unioning
(lines 76-103). -/
def closeComponent (d : Nat → Bool) (F myID Min : Nat)
    (s2 : TState) : Except TErr (Nat × TState) :=
  if s2.valMap F ≠ some myID then .error .postcond
  else if Min ≠ myID then .ok (Min, s2)
  else
    match s2.stack with
    | [] => .error .postcond
    | top :: rest =>
      if top = F then
        .ok (myID, ⟨rest, s2.nextID, s2.valMap, s2.ecs.insert F⟩)
      else
        match popLoop d F s2.stack [] none with
        | (micro, rest2, ldr) =>
          match ldr with
          | none => .error .noLeader
          | some L0 =>
            let e1 := s2.ecs.insert L0
            let L := e1.l L0
            if d L then .error .externLeader
            else
              match unionAll L micro e1 with
              | .error e => .error e
              | .ok e2 => .ok (myID, ⟨rest2, s2.nextID, s2.valMap, e2⟩)

mutual

/-- DSCallGraph::tarjan_rec (lines 47-106).  The callee iteration order of the
`std::set` is its increasing order.  The `assert(!ValMap.count(F))` is
`revisit`; the rest of the body after the callee loop is `closeComponent`. -/
def tarjan_rec (st : CGStore) (d : Nat → Bool) :
    Nat → Nat → TState → Except TErr (Nat × TState)
  | 0, _, _ => .error .fuel
  | fuel + 1, F, s =>
    if (s.valMap F).isSome then .error .revisit
    else
      let myID := s.nextID
      let s1 : TState := ⟨F :: s.stack, s.nextID + 1, updO s.valMap F myID, s.ecs⟩
      match tarjan_edges st d fuel (keyList (st.simpleAt F)) myID s1 with
      | .error e => .error e
      | .ok (Min, s2) => closeComponent d F myID Min s2

/-- The callee loop of tarjan_rec (lines 55-65): for each callee, recurse when
unvisited, take its stored index when it is still on the stack, ignore it
otherwise, folding the minimum into the running low-link. -/
def tarjan_edges (st : CGStore) (d : Nat → Bool) :
    Nat → List Nat → Nat → TState → Except TErr (Nat × TState)
  | 0, _, _, _ => .error .fuel
  | _ + 1, [], Min, s => .ok (Min, s)
  | fuel + 1, c :: cs, Min, s =>
    match s.valMap c with
    | none =>
      match tarjan_rec st d fuel c s with
      | .error e => .error e
      | .ok (M, s') => tarjan_edges st d fuel cs (min Min M) s'
    | some ic =>
      let M := if c ∈ s.stack then ic else Min
      tarjan_edges st d fuel cs (min Min M) s

end

/-- The top-level driver loop of buildSCCs (lines 113-116): visit every key of
the simple map not yet in ValMap. -/
def sccDriver (st : CGStore) (d : Nat → Bool) (fuel : Nat) :
    List Nat → TState → Except TErr TState
  | [], s => .ok s
  | k :: ks, s =>
    if (s.valMap k).isSome then sccDriver st d fuel ks s
    else
      match tarjan_rec st d fuel k s with
      | .error e => .error e
      | .ok (_, s') => sccDriver st d fuel ks s'

/-- A fuel bound generous enough for every concrete run: the C++ recursion
always terminates, and the theorems below never rely on this bound being
reached. -/
def sccFuel (st : CGStore) : Nat :=
  let U := st.simpleKeys ∪ st.simpleKeys.biUnion st.simpleAt
  let E := st.simpleKeys.sum (fun k => (st.simpleAt k).card)
  2 * (U.card + E + 2)

/-- static void removeECs(FuncSet&, EquivalenceClasses&) (lines 121-129):
replace every member of the set by its class leader. -/
def removeECs (Fs : Finset Nat) (e : EC) : Finset Nat := Fs.image e.l

/-- The first loop of removeECFunctions (lines 133-146), iterated over the
entries in map (key) order: a non-leader caller's set is merged into its
leader's entry (default-constructing it if absent) and the non-leader entry
is erased.  Entries created for leaders during the loop would be skipped by
the `Leader == ii->first` test when reached, so folding over the original key
list is equivalent to iterating the mutating map. -/
def mergePhase (l : Nat → Nat) :
    List Nat → Finset Nat → (Nat → Finset Nat) → Finset Nat × (Nat → Finset Nat)
  | [], K, V => (K, V)
  | k :: ks, K, V =>
    if l k = k then mergePhase l ks K V
    else mergePhase l ks (Insert.insert (l k) (K.erase k))
      (upd V (l k) (mget K V (l k) ∪ mget K V k))

/-- DSCallGraph::removeECFunctions (lines 131-157): merge non-leader callers
into their leaders, then per remaining entry map callees to leaders and erase
the self loop, then map every actual-map entry's callees to leaders. -/
def DSCallGraph.removeECFunctions (st : CGStore) (e : EC) : CGStore :=
  let p := mergePhase e.l (keyList st.simpleKeys) st.simpleKeys st.simpleVal
  { simpleKeys := p.1,
    simpleVal := fun k => if k ∈ p.1 then (removeECs (p.2 k) e).erase k else p.2 k,
    actualKeys := st.actualKeys,
    actualVal := fun s =>
      if s ∈ st.actualKeys then removeECs (st.actualVal s) e else st.actualVal s }

/-- DSCallGraph::buildSCCs (lines 108-119): run the driver over all keys of
the simple map in map (key) order, then collapse with removeECFunctions.
Returns the collapsed store together with the computed partition. -/
def DSCallGraph.buildSCCs (st : CGStore) (d : Nat → Bool) :
    Except TErr (CGStore × EC) :=
  match sccDriver st d (sccFuel st) (keyList st.simpleKeys)
      ⟨[], 1, fun _ => none, EC.empty⟩ with
  | .error e => .error e
  | .ok s => .ok (DSCallGraph.removeECFunctions st s.ecs, s.ecs)

/-- Position of the first occurrence of `z` in a list (length of the list if
absent); the completion rank used to order equivalence classes. -/
def rankIn : List Nat → Nat → Nat
  | [], _ => 0
  | x :: xs, z => if x = z then 0 else rankIn xs z + 1

/-- Example environment: every procedure has a body. -/
def exD : Nat → Bool := fun _ => false

/-- Example environment: procedure 2 is declaration-only. -/
def exDeclTwo : Nat → Bool := fun n => n = 2

/-- Example store: procedure 5 with a direct call to itself (site 0). -/
def exSelf : CGStore := DSCallGraph.insert emptyStore 0 5 (some 5)

/-- Example store: procedure 0 calls procedure 1 (site 20). -/
def exChain : CGStore := DSCallGraph.insert emptyStore 20 0 (some 1)

/-- Example store: mutual recursion 1 ↔ 2 (sites 10 and 11). -/
def exTwo : CGStore :=
  DSCallGraph.insert (DSCallGraph.insert emptyStore 10 1 (some 2)) 11 2 (some 1)

/-- The completed run of buildSCCs on `exChain`. -/
def exChainRun : CGStore × EC :=
  (DSCallGraph.buildSCCs exChain exD).toOption.getD (emptyStore, EC.empty)

/-- The completed run of buildSCCs on `exSelf`. -/
def exSelfRun : CGStore × EC :=
  (DSCallGraph.buildSCCs exSelf exD).toOption.getD (emptyStore, EC.empty)

/-- The completed run of buildSCCs on `exTwo` with 2 declaration-only. -/
def exTwoRun : CGStore × EC :=
  (DSCallGraph.buildSCCs exTwo exDeclTwo).toOption.getD (emptyStore, EC.empty)

/-- A starting Tarjan state that already has one discovery index (procedure 9
at index 1), used to exhibit index preservation on a concrete run. -/
def exState9 : TState := ⟨[], 2, updO (fun _ => none) 9 1, EC.empty⟩

/-- The completed run of tarjan_rec on `exChain` from `exState9`. -/
def exTarjanRun : Nat × TState :=
  (tarjan_rec exChain exD 20 0 exState9).toOption.getD (0, exState9)

/-- Example variadic signature. -/
def exFT : FnTy := ⟨true, .scalar, []⟩

/-- Example call site with a statically-known callee of signature `exFT`. -/
def exCS : CallSiteSig := ⟨some exFT, .scalar⟩

/-- First-some choice on options (the accumulation pattern of the pop loop's
leader candidate). -/
def optOr : Option Nat → Option Nat → Option Nat
  | some a, _ => some a
  | none, b => b

/-- The invariant maintained by the Tarjan walk: stack entries are visited
and distinct; discovery indices are below the counter; the partition's
domain is exactly the closed (visited, off-stack) nodes; leaders are
idempotent, lie in the domain, default to the identity off it, and are never
declaration-only for a merged class; and every closed node's callees are
closed with a leader of the same class or of an earlier-completed class
(smaller `rankIn` position in the insertion-ordered domain). -/
structure Inv (st : CGStore) (d : Nat → Bool) (s : TState) : Prop where
  stackVis : ∀ x ∈ s.stack, (s.valMap x).isSome = true
  stackNodup : s.stack.Nodup
  idLt : ∀ x i, s.valMap x = some i → i < s.nextID
  domClosed : ∀ x ∈ s.ecs.dom, (s.valMap x).isSome = true ∧ x ∉ s.stack
  closedDom : ∀ x, (s.valMap x).isSome = true → x ∉ s.stack → x ∈ s.ecs.dom
  domNodup : s.ecs.dom.Nodup
  lFresh : ∀ x, x ∉ s.ecs.dom → s.ecs.l x = x
  lDom : ∀ x ∈ s.ecs.dom, s.ecs.l x ∈ s.ecs.dom
  lIdem : ∀ x, s.ecs.l (s.ecs.l x) = s.ecs.l x
  lNonDecl : ∀ x, s.ecs.l x ≠ x → d (s.ecs.l x) = false
  edgeInv : ∀ x ∈ s.ecs.dom, ∀ y ∈ st.simpleAt x, y ∈ s.ecs.dom ∧
    (s.ecs.l y = s.ecs.l x ∨
      rankIn s.ecs.dom (s.ecs.l y) < rankIn s.ecs.dom (s.ecs.l x))

/-- Postcondition of a successful `tarjan_rec st d fuel F s = .ok (mn, s')`:
existing indices are preserved, `F` receives index `s.nextID`, the returned
low-link is at most `F`'s index and is either at least it or the index of a
node of the entry stack, the stack is extended by freshly visited and fully
explored nodes whose on-stack callees have index at least `mn`, a low-link
equal to `F`'s own index means the component was popped and the stack
restored, and the partition's domain is extended with old leaders kept. -/
structure VisitPost (st : CGStore) (s : TState) (F mn : Nat) (s' : TState) :
    Prop where
  pres : ∀ x, (s.valMap x).isSome = true → s'.valMap x = s.valMap x
  idF : s'.valMap F = some s.nextID
  nextGt : s.nextID < s'.nextID
  mnLe : mn ≤ s.nextID
  mnLoc : s.nextID ≤ mn ∨ ∃ y ∈ s.stack, s.valMap y = some mn
  stackExt : ∃ ext, s'.stack = ext ++ s.stack ∧
    ∀ x ∈ ext, (s.valMap x).isSome = false ∧ (s'.valMap x).isSome = true ∧
      s.nextID ≤ (s'.valMap x).getD 0 ∧
      ∀ y ∈ st.simpleAt x, (s'.valMap y).isSome = true ∧
        (y ∈ s'.stack → mn ≤ (s'.valMap y).getD 0)
  popRestores : mn = s.nextID → s'.stack = s.stack
  domExt : ∃ dext, s'.ecs.dom = s.ecs.dom ++ dext
  lPres : ∀ x ∈ s.ecs.dom, s'.ecs.l x = s.ecs.l x

/-- Postcondition of a successful
`tarjan_edges st d fuel cs m s = .ok (mn, s')`: like `VisitPost` but for the
callee loop — the accumulated minimum only decreases from `m`, and every
processed callee is visited with index at least `mn` when still on the
stack. -/
structure EdgesPost (st : CGStore) (s : TState) (cs : List Nat) (m mn : Nat)
    (s' : TState) : Prop where
  pres : ∀ x, (s.valMap x).isSome = true → s'.valMap x = s.valMap x
  nextLe : s.nextID ≤ s'.nextID
  mnLe : mn ≤ m
  mnLoc : mn = m ∨ s.nextID ≤ mn ∨ ∃ y ∈ s.stack, s.valMap y = some mn
  stackExt : ∃ ext, s'.stack = ext ++ s.stack ∧
    ∀ x ∈ ext, (s.valMap x).isSome = false ∧ (s'.valMap x).isSome = true ∧
      s.nextID ≤ (s'.valMap x).getD 0 ∧
      ∀ y ∈ st.simpleAt x, (s'.valMap y).isSome = true ∧
        (y ∈ s'.stack → mn ≤ (s'.valMap y).getD 0)
  processed : ∀ c ∈ cs, (s'.valMap c).isSome = true ∧
    (c ∈ s'.stack → mn ≤ (s'.valMap c).getD 0)
  domExt : ∃ dext, s'.ecs.dom = s.ecs.dom ++ dext
  lPres : ∀ x ∈ s.ecs.dom, s'.ecs.l x = s.ecs.l x

/-! ## Basic lemmas about the map encoding -/

theorem upd_apply_self (V : Nat → Finset Nat) (k : Nat) (v : Finset Nat) :
    upd V k v k = v := by
  simp [upd]

theorem upd_apply_ne (V : Nat → Finset Nat) (k : Nat) (v : Finset Nat) (x : Nat)
    (h : x ≠ k) : upd V k v x = V x := by
  simp [upd, h]

theorem upd_upd (V : Nat → Finset Nat) (k : Nat) (a b : Finset Nat) :
    upd (upd V k a) k b = upd V k b := by
  funext x
  by_cases h : x = k <;> simp [upd, h]

theorem upd_self (V : Nat → Finset Nat) (k : Nat) : upd V k (V k) = V := by
  funext x
  by_cases h : x = k <;> simp [upd, h]

theorem mget_insert_self (K : Finset Nat) (V : Nat → Finset Nat) (k : Nat) :
    mget (Insert.insert k K) V k = V k := by
  simp [mget]

theorem mget_subset_insert_upd (K : Finset Nat) (V : Nat → Finset Nat)
    (k : Nat) (v : Finset Nat) (hv : mget K V k ⊆ v) (x : Nat) :
    mget K V x ⊆ mget (Insert.insert k K) (upd V k v) x := by
  by_cases hx : x = k
  · subst hx
    simpa [mget_insert_self, upd_apply_self] using hv
  · intro y hy
    simp only [mget] at hy ⊢
    by_cases hK : x ∈ K
    · simp only [hK, if_true] at hy
      simp [Finset.mem_insert, hK, upd_apply_ne V k v x hx, hy]
    · simp [hK] at hy

/-! ## C3: the resolved callee is not made a key of the simple map.

The code's own comment (lines 210-211: "all called functions get to be in the
call graph also") and the spec's invariant both require a resolved callee to
become a key of the simple map; `DSCallGraph::insert` only touches the
caller's entry, so a resolved callee is recorded inside the caller's callee
set without ever becoming a key. -/

/-- C3: evaluating `insert` at the failing input: one call from procedure 1
resolving to procedure 2.  The callee 2 is recorded in 1's simple-callee set
yet is not a key of the simple map, refuting the claimed invariant. -/
theorem insert_callee_not_key :
    2 ∈ (DSCallGraph.insert emptyStore 0 1 (some 2)).simpleAt 1 ∧
    2 ∉ (DSCallGraph.insert emptyStore 0 1 (some 2)).simpleKeys := by
  decide

/-! ## C4: the unresolved-call-site scenario -/

/-- C4 counterexample: for procedure 1 with one unresolved call site 0, the
actual callee map has *no* entry for the site at all, contrary to the claimed
empty-target-set entry. -/
theorem unresolved_site_no_actual_entry_cex :
    ¬ (0 ∈ (DSCallGraph.insert emptyStore 0 1 none).actualKeys) := by
  decide

/-- C4 (amended): after ingesting one unresolved call site, the caller is a
key of the simple map with an empty simple-callee set, the actual map has no
entry for the site, and the caller is a root. -/
theorem unresolved_site_scenario (site f : Nat) :
    f ∈ (DSCallGraph.insert emptyStore site f none).simpleKeys ∧
    (DSCallGraph.insert emptyStore site f none).simpleAt f = ∅ ∧
    site ∉ (DSCallGraph.insert emptyStore site f none).actualKeys ∧
    f ∈ DSCallGraph.buildRoots (DSCallGraph.insert emptyStore site f none) := by
  refine ⟨by simp [DSCallGraph.insert, emptyStore], ?_, ?_, ?_⟩
  · simp [DSCallGraph.insert, emptyStore, CGStore.simpleAt, mget, upd]
  · simp [DSCallGraph.insert, emptyStore]
  · simp [DSCallGraph.buildRoots, DSCallGraph.insert, emptyStore,
      CGStore.simpleAt, mget, upd]

/-! ## C6: root characterization -/

/-- C6: membership in buildRoots' result is exactly "is a key of the simple
map and belongs to no entry's callee set". -/
theorem buildRoots_spec (st : CGStore) (L : Nat) :
    L ∈ DSCallGraph.buildRoots st ↔
      L ∈ st.simpleKeys ∧ ∀ k ∈ st.simpleKeys, L ∉ st.simpleAt k := by
  simp only [DSCallGraph.buildRoots, Finset.mem_sdiff, Finset.mem_biUnion]
  push_neg
  rfl

/-- C6 witness: on the chain store, procedure 0 is a root. -/
theorem buildRoots_spec_witness : 0 ∈ DSCallGraph.buildRoots exChain :=
  (buildRoots_spec exChain 0).mpr (by decide)

/-! ## C7: idempotence of insert -/

/-- C7: recording the identical (site, caller, callee) edge twice yields the
same store as recording it once, for resolved and unresolved callees alike. -/
theorem insert_idempotent (st : CGStore) (site caller : Nat) (F : Option Nat) :
    DSCallGraph.insert (DSCallGraph.insert st site caller F) site caller F =
      DSCallGraph.insert st site caller F := by
  cases F with
  | none =>
    simp only [DSCallGraph.insert]
    ext1 <;>
      simp [Finset.insert_idem, mget_insert_self, upd_apply_self, upd_upd]
  | some f =>
    simp only [DSCallGraph.insert]
    ext1 <;>
      simp [Finset.insert_idem, mget_insert_self, upd_apply_self, upd_upd,
        upd_self]

/-! ## C8: pointer-relevance classifier -/

/-- C8: `_hasPointers` is true iff the signature is variadic, has a pointer
return type, or has a pointer parameter; the call-site entry point uses the
statically-known callee's declared signature when present and otherwise the
static function type of the called value. -/
theorem hasPointers_spec :
    (∀ T : FnTy, hasPointersFT T = true ↔
        T.varArg = true ∨ T.ret.isPointerTy = true ∨
          ∃ p ∈ T.params, p.isPointerTy = true) ∧
    (∀ CS F, CS.calledFunction = some F →
        hasPointersCS CS = some (hasPointersFT F)) ∧
    (∀ CS, CS.calledFunction = none →
        hasPointersCS CS = (fnSigOfValue CS.calledValueType).map hasPointersFT) := by
  refine ⟨?_, ?_, ?_⟩
  · intro T
    simp only [hasPointersFT]
    split_ifs with h1 h2
    · simp [h1]
    · simp [h1, h2]
    · simp [h1, h2, List.any_eq_true]
  · rintro ⟨cf, cvt⟩ F h
    simp only at h
    subst h
    rfl
  · rintro ⟨cf, cvt⟩ h
    simp only at h
    subst h
    cases cvt with
    | pointer e => cases e <;> rfl
    | function va r ps => rfl
    | scalar => rfl

/-- C8 witness: the classifier on a concrete call site with a known variadic
callee. -/
theorem hasPointers_spec_witness : hasPointersCS exCS = some true :=
  hasPointers_spec.2.1 exCS exFT rfl

/-! ## C10: monotonicity of ingestion -/

/-- C10: insert and insureEntry never remove a key or a callee-set member:
the key sets only grow and every entry's set (read through the map view) only
grows. -/
theorem ingest_monotone (st : CGStore) (site caller F0 : Nat) (F : Option Nat) :
    st.simpleKeys ⊆ (DSCallGraph.insert st site caller F).simpleKeys ∧
    (∀ x, st.simpleAt x ⊆ (DSCallGraph.insert st site caller F).simpleAt x) ∧
    st.actualKeys ⊆ (DSCallGraph.insert st site caller F).actualKeys ∧
    (∀ x, st.actualAt x ⊆ (DSCallGraph.insert st site caller F).actualAt x) ∧
    st.simpleKeys ⊆ (DSCallGraph.insureEntry st F0).simpleKeys ∧
    (∀ x, st.simpleAt x ⊆ (DSCallGraph.insureEntry st F0).simpleAt x) ∧
    st.actualKeys = (DSCallGraph.insureEntry st F0).actualKeys ∧
    (∀ x, st.actualAt x = (DSCallGraph.insureEntry st F0).actualAt x) := by
  cases st with
  | mk K V A W =>
  refine ⟨?_, ?_, ?_, ?_, ?_, ?_, ?_, ?_⟩
  · cases F <;> exact fun y hy => Finset.mem_insert_of_mem hy
  · intro x
    cases F with
    | none =>
      exact mget_subset_insert_upd K V caller (mget K V caller)
        (subset_refl _) x
    | some f =>
      show mget K V x ⊆ mget (Insert.insert caller K)
        (upd (upd V caller (mget K V caller)) caller _) x
      rw [upd_upd]
      exact mget_subset_insert_upd K V caller _
        (by
          rw [mget_insert_self, upd_apply_self]
          exact Finset.subset_insert _ _) x
  · cases F with
    | none => exact subset_refl _
    | some f => exact fun y hy => Finset.mem_insert_of_mem hy
  · intro x
    cases F with
    | none => exact subset_refl _
    | some f =>
      exact mget_subset_insert_upd A W site _ (Finset.subset_insert _ _) x
  · exact fun y hy => Finset.mem_insert_of_mem hy
  · intro x
    exact mget_subset_insert_upd K V F0 (mget K V F0) (subset_refl _) x
  · rfl
  · intro x
    rfl

/-! ## C1: self-loop suppression after collapsing -/

/-- After removeECFunctions, no entry of the simple map contains its own key:
the second loop erases the caller from its own callee set unconditionally. -/
theorem removeECFunctions_no_self (st : CGStore) (e : EC) (f : Nat) :
    f ∉ (DSCallGraph.removeECFunctions st e).simpleAt f := by
  simp only [DSCallGraph.removeECFunctions, CGStore.simpleAt, mget]
  split_ifs with h1
  · simp [h1]
  · simp

/-- C1 counterexample: procedure 5 directly calls itself and is discovered as
a singleton class (`dom = [5]`), yet the collapsed simple map maps 5 to the
empty set — the genuine self-edge is erased, contrary to the claim. -/
theorem self_loop_erased_cex :
    exSelf.simpleAt 5 = {5} ∧
    (DSCallGraph.buildSCCs exSelf exD).toOption.map
        (fun p => (p.1.simpleAt 5, p.2.dom)) = some (∅, [5]) := by
  constructor
  · decide
  · decide

/-- C1 (amended): after the collapse pass no caller's simple-callee set
contains the caller itself — including a singleton class whose procedure
directly called itself; its self-edge is erased from the simple map too. -/
theorem collapsed_no_self_loops (st : CGStore) (d : Nat → Bool)
    (st' : CGStore) (e : EC)
    (h : DSCallGraph.buildSCCs st d = .ok (st', e)) (f : Nat) :
    f ∉ st'.simpleAt f := by
  unfold DSCallGraph.buildSCCs at h
  rcases hd : sccDriver st d (sccFuel st) (keyList st.simpleKeys)
      ⟨[], 1, fun _ => none, EC.empty⟩ with e' | s
  · rw [hd] at h
    exact absurd h (by simp)
  · rw [hd] at h
    simp only [Except.ok.injEq, Prod.mk.injEq] at h
    rw [← h.1]
    exact removeECFunctions_no_self st s.ecs f

/-- C1 witness: the amended statement applied to the concrete self-loop
store. -/
theorem collapsed_no_self_loops_witness : 5 ∉ exSelfRun.1.simpleAt 5 :=
  collapsed_no_self_loops exSelf exD exSelfRun.1 exSelfRun.2 (by rfl) 5

/-! ## Helper lemmas: keyList, rankIn, EC, optOr, popLoop, unionAll -/

theorem mem_keyList {K : Finset Nat} {x : Nat} : x ∈ keyList K ↔ x ∈ K := by
  constructor
  · intro h
    simpa using (List.mem_filter.mp h).2
  · intro h
    refine List.mem_filter.mpr ⟨List.mem_range.mpr ?_, by simpa⟩
    have hx : x ≤ K.sup id := Finset.le_sup (f := id) h
    omega

theorem keyList_nodup (K : Finset Nat) : (keyList K).Nodup :=
  (List.nodup_range _).filter _

theorem rankIn_append_left {l1 : List Nat} {z : Nat} (h : z ∈ l1)
    (l2 : List Nat) : rankIn (l1 ++ l2) z = rankIn l1 z := by
  induction l1 with
  | nil => cases h
  | cons a t ih =>
    by_cases ha : a = z
    · simp [rankIn, ha]
    · rcases List.mem_cons.mp h with h1 | h2
      · exact absurd h1.symm ha
      · simp [rankIn, ha, ih h2]

theorem rankIn_lt_length {l : List Nat} {z : Nat} (h : z ∈ l) :
    rankIn l z < l.length := by
  induction l with
  | nil => cases h
  | cons a t ih =>
    by_cases ha : a = z
    · simp [rankIn, ha]
    · rcases List.mem_cons.mp h with h1 | h2
      · exact absurd h1.symm ha
      · simp only [rankIn, ha, if_false, List.length_cons]
        exact Nat.succ_lt_succ (ih h2)

theorem rankIn_append_right {l1 : List Nat} {z : Nat} (h : z ∉ l1)
    (l2 : List Nat) : rankIn (l1 ++ l2) z = l1.length + rankIn l2 z := by
  induction l1 with
  | nil => simp
  | cons a t ih =>
    have ha : a ≠ z := fun e => h (e ▸ List.mem_cons_self a t)
    have h2 : z ∉ t := fun hz => h (List.mem_cons_of_mem a hz)
    rw [List.cons_append]
    show (if a = z then 0 else rankIn (t ++ l2) z + 1) = _
    rw [if_neg ha, ih h2, List.length_cons]
    omega

theorem EC.insert_l (e : EC) (x : Nat) : (e.insert x).l = e.l := by
  unfold EC.insert
  split <;> rfl

theorem EC.insert_dom_of_not_mem {e : EC} {x : Nat} (h : x ∉ e.dom) :
    (e.insert x).dom = e.dom ++ [x] := by
  unfold EC.insert
  simp [h]

theorem EC.insert_of_mem {e : EC} {x : Nat} (h : x ∈ e.dom) :
    EC.insert e x = e := by
  unfold EC.insert
  simp [h]

theorem optOr_none_right (o : Option Nat) : optOr o none = o := by
  cases o <;> rfl

theorem optOr_assoc (a b c : Option Nat) :
    optOr (optOr a b) c = optOr a (optOr b c) := by
  cases a <;> rfl

theorem optOr_step (ldr : Option Nat) (b : Bool) (NF : Nat) :
    (if ldr.isNone && b then some NF else ldr) =
      optOr ldr (if b = true then some NF else none) := by
  cases ldr <;> cases b <;> simp [optOr]

theorem find?_not_cons (d : Nat → Bool) (a : Nat) (t : List Nat) :
    (a :: t).find? (fun g => !(d g)) =
      optOr (if (!(d a)) = true then some a else none)
        (t.find? (fun g => !(d g))) := by
  cases h : d a <;> simp [List.find?_cons, h, optOr]

theorem popLoop_char (d : Nat → Bool) (F : Nat) :
    ∀ (pre base acc : List Nat) (ldr : Option Nat), F ∉ pre →
      popLoop d F (pre ++ F :: base) acc ldr =
        (acc.reverse ++ (pre ++ [F]), base,
          optOr ldr ((pre ++ [F]).find? (fun g => !(d g)))) := by
  intro pre
  induction pre with
  | nil =>
    intro base acc ldr _
    show popLoop d F (F :: base) acc ldr = _
    unfold popLoop
    rw [if_pos rfl, optOr_step ldr (!(d F)) F]
    simp only [List.nil_append, List.reverse_cons, find?_not_cons,
      List.find?_nil, optOr_none_right]
  | cons a t ih =>
    intro base acc ldr hF
    have haF : a ≠ F := fun e => hF (e ▸ List.mem_cons_self a t)
    have htF : F ∉ t := fun hz => hF (List.mem_cons_of_mem a hz)
    show popLoop d F (a :: (t ++ F :: base)) acc ldr = _
    unfold popLoop
    rw [if_neg haF, optOr_step ldr (!(d a)) a, ih base (a :: acc) _ htF]
    simp only [List.reverse_cons, List.append_assoc, optOr_assoc,
      List.cons_append, List.nil_append]
    rw [show (a :: (t ++ [F])) = a :: (t ++ [F]) from rfl, find?_not_cons]

theorem unionAll_spec (L : Nat) :
    ∀ (micro : List Nat) (e : EC), micro.Nodup → e.dom.Nodup →
      e.l L = L → L ∈ e.dom →
      (∀ m ∈ micro, m ≠ L → m ∉ e.dom ∧ e.l m = m ∧ ∀ z, e.l z = m → z = m) →
      ∃ e', unionAll L micro e = .ok e' ∧
        (∀ x, e'.l x = if x ∈ micro then L else e.l x) ∧
        (∀ y, y ∈ e'.dom ↔ y ∈ e.dom ∨ y ∈ micro) ∧
        (∃ dext, e'.dom = e.dom ++ dext) ∧ e'.dom.Nodup := by
  intro micro
  induction micro with
  | nil =>
    intro e _ hnd hL hLd _
    exact ⟨e, rfl, by simp, by simp, ⟨[], by simp⟩, hnd⟩
  | cons m ms ih =>
    intro e hmnd hnd hL hLd hsin
    by_cases hmL : m = L
    · subst hmL
      have hins : EC.insert e m = e := EC.insert_of_mem hLd
      have hlm : e.l m = m := hL
      have he2 : ∀ x, (EC.union e m (e.l m)).l x = e.l x := by
        intro x
        show (if e.l x = e.l (e.l m) then e.l m else e.l x) = e.l x
        simp only [hlm]
        by_cases h : e.l x = m
        · rw [if_pos h, h]
        · rw [if_neg h]
      have hstep : unionAll m (m :: ms) e = unionAll m ms (EC.union e m (e.l m)) := by
        show (if (EC.union (e.insert m) m ((e.insert m).l m)).l m = m ∧
                (EC.union (e.insert m) m ((e.insert m).l m)).l ((e.insert m).l m) = m
              then unionAll m ms (EC.union (e.insert m) m ((e.insert m).l m))
              else .error .sccAssert) = _
        rw [hins]
        rw [if_pos ⟨by rw [he2 m]; exact hlm, by rw [he2 (e.l m), hlm]; exact hlm⟩]
      obtain ⟨e', he', hl', hmem', ⟨dext, hdom'⟩, hnd'⟩ :=
        ih (EC.union e m (e.l m)) hmnd.of_cons hnd (by rw [he2 m, hlm]) hLd
          (by
            intro m' hm' hm'L
            obtain ⟨h1, h2, h3⟩ := hsin m' (List.mem_cons_of_mem m hm') hm'L
            exact ⟨h1, by rw [he2 m', h2], fun z hz => h3 z (by rw [← he2 z, hz])⟩)
      refine ⟨e', by rw [hstep, he'], ?_, ?_, ⟨dext, hdom'⟩, hnd'⟩
      · intro x
        rw [hl' x]
        by_cases hx : x ∈ ms
        · simp [hx]
        · by_cases hxm : x = m
          · rw [if_neg hx, he2 x]
            subst hxm
            simp [hlm]
          · simp [hx, hxm, he2 x]
      · intro y
        rw [hmem' y]
        show y ∈ e.dom ∨ y ∈ ms ↔ _
        constructor
        · rintro (h | h)
          · exact Or.inl h
          · exact Or.inr (List.mem_cons_of_mem m h)
        · rintro (h | h)
          · exact Or.inl h
          · rcases List.mem_cons.mp h with h1 | h2
            · exact Or.inl (h1 ▸ hLd)
            · exact Or.inr h2
    · obtain ⟨hmdom, hlm, hsg⟩ := hsin m (List.mem_cons_self m ms) hmL
      have hmms : m ∉ ms := (List.nodup_cons.mp hmnd).1
      have hil : (e.insert m).l = e.l := EC.insert_l e m
      have hidom : (e.insert m).dom = e.dom ++ [m] := EC.insert_dom_of_not_mem hmdom
      have he2l : ∀ x, (EC.union (e.insert m) L ((e.insert m).l m)).l x =
          if x = m then L else e.l x := by
        intro x
        show (if (e.insert m).l x = (e.insert m).l ((e.insert m).l m)
              then (e.insert m).l L else (e.insert m).l x) = _
        rw [hil]
        simp only [hlm]
        by_cases h : x = m
        · rw [if_pos (by rw [h]; exact hlm), if_pos h]
          exact hL
        · rw [if_neg (fun hc => h (hsg x hc)), if_neg h]
      have hstep : unionAll L (m :: ms) e =
          unionAll L ms (EC.union (e.insert m) L ((e.insert m).l m)) := by
        show (if (EC.union (e.insert m) L ((e.insert m).l m)).l L = L ∧
                (EC.union (e.insert m) L ((e.insert m).l m)).l ((e.insert m).l m) = L
              then unionAll L ms (EC.union (e.insert m) L ((e.insert m).l m))
              else .error .sccAssert) =
            unionAll L ms (EC.union (e.insert m) L ((e.insert m).l m))
        rw [if_pos ⟨by rw [he2l L, if_neg (Ne.symm hmL)]; exact hL,
          by rw [he2l ((e.insert m).l m), hil, hlm, if_pos rfl]⟩]
      have he2dom : (EC.union (e.insert m) L ((e.insert m).l m)).dom = e.dom ++ [m] := by
        show (e.insert m).dom = _
        exact hidom
      obtain ⟨e', he', hl', hmem', ⟨dext, hdom'⟩, hnd'⟩ :=
        ih (EC.union (e.insert m) L ((e.insert m).l m)) hmnd.of_cons
          (by
            rw [he2dom]
            exact List.Nodup.append hnd (List.nodup_singleton m)
              (by simpa using hmdom))
          (by rw [he2l L, if_neg (Ne.symm hmL)]; exact hL)
          (by rw [he2dom]; exact List.mem_append_left _ hLd)
          (by
            intro m' hm' hm'L
            obtain ⟨h1, h2, h3⟩ := hsin m' (List.mem_cons_of_mem m hm') hm'L
            have hm'm : m' ≠ m := fun e' => hmms (e' ▸ hm')
            refine ⟨?_, ?_, ?_⟩
            · rw [he2dom]
              simp [h1, hm'm]
            · rw [he2l m', if_neg hm'm]
              exact h2
            · intro z hz
              rw [he2l z] at hz
              by_cases hzm : z = m
              · rw [if_pos hzm] at hz
                exact absurd hz.symm hm'L
              · rw [if_neg hzm] at hz
                exact h3 z hz)
      refine ⟨e', by rw [hstep, he'], ?_, ?_, ?_, hnd'⟩
      · intro x
        rw [hl' x]
        by_cases hx : x ∈ ms
        · simp [hx]
        · by_cases hxm : x = m
          · simp [hxm, he2l]
          · simp only [hx, if_false]
            rw [he2l x, if_neg hxm]
            simp [List.mem_cons, hxm, hx]
      · intro y
        rw [hmem' y, he2dom]
        simp only [List.mem_append, List.mem_singleton, List.mem_cons]
        tauto
      · refine ⟨m :: dext, ?_⟩
        rw [hdom', he2dom]
        simp

/-! ## Closing a component: the two pop branches of tarjan_rec -/

theorem stack_not_dom {st : CGStore} {d : Nat → Bool} {s : TState}
    (hInv : Inv st d s) {x : Nat} (hx : x ∈ s.stack) : x ∉ s.ecs.dom :=
  fun hd => (hInv.domClosed x hd).2 hx

theorem closeComponent_early {d : Nat → Bool} {F myID Min : Nat} {s2 : TState}
    (hidF : s2.valMap F = some myID) (hMin : Min ≠ myID) :
    closeComponent d F myID Min s2 = .ok (Min, s2) := by
  unfold closeComponent
  rw [if_neg (by simp [hidF]), if_pos hMin]

theorem closeComponent_pop_spec (st : CGStore) (d : Nat → Bool)
    (F myID : Nat) (s2 : TState) (hInv : Inv st d s2)
    (ext base : List Nat)
    (hstk : s2.stack = ext ++ F :: base)
    (hFext : F ∉ ext)
    (hidF : s2.valMap F = some myID)
    (hbase : ∀ y ∈ base, ∃ j, s2.valMap y = some j ∧ j < myID)
    (hmem : ∀ u ∈ ext ++ [F], ∀ y ∈ st.simpleAt u,
      (s2.valMap y).isSome = true ∧
        (y ∈ s2.stack → myID ≤ (s2.valMap y).getD 0))
    (mn : Nat) (s' : TState)
    (hok : closeComponent d F myID myID s2 = .ok (mn, s')) :
    mn = myID ∧ s'.stack = base ∧ s'.valMap = s2.valMap ∧
      s'.nextID = s2.nextID ∧ (∃ dext, s'.ecs.dom = s2.ecs.dom ++ dext) ∧
      (∀ x ∈ s2.ecs.dom, s'.ecs.l x = s2.ecs.l x) ∧ Inv st d s' := by
  have hstk2 : s2.stack = (ext ++ [F]) ++ base := by
    rw [hstk]
    simp
  have hmicro_nodup : (ext ++ [F]).Nodup := by
    have := hInv.stackNodup
    rw [hstk2] at this
    exact this.of_append_left
  have hmicro_base_disj : ∀ x ∈ ext ++ [F], x ∉ base := by
    have := hInv.stackNodup
    rw [hstk2] at this
    intro x hx hb
    exact (List.disjoint_of_nodup_append this) hx hb
  have hmicro_stack : ∀ x ∈ ext ++ [F], x ∈ s2.stack := by
    intro x hx
    rw [hstk2]
    exact List.mem_append_left _ hx
  have hmicro_dom : ∀ x ∈ ext ++ [F], x ∉ s2.ecs.dom := by
    intro x hx
    exact stack_not_dom hInv (hmicro_stack x hx)
  have hbase_stack : ∀ x ∈ base, x ∈ s2.stack := by
    intro x hx
    rw [hstk2]
    exact List.mem_append_right _ hx
  -- the callee fact specialized to members, with the base case excluded
  have hmemb : ∀ u ∈ ext ++ [F], ∀ y ∈ st.simpleAt u,
      (y ∈ ext ++ [F] ∧ (s2.valMap y).isSome = true) ∨
        (y ∉ s2.stack ∧ (s2.valMap y).isSome = true) := by
    intro u hu y hy
    obtain ⟨hvy, hsy⟩ := hmem u hu y hy
    by_cases hys : y ∈ s2.stack
    · left
      refine ⟨?_, hvy⟩
      have hge := hsy hys
      rw [hstk2] at hys
      rcases List.mem_append.mp hys with h1 | h2
      · exact h1
      · obtain ⟨j, hj, hjlt⟩ := hbase y h2
        rw [hj] at hge
        simp only [Option.getD_some] at hge
        omega
    · right
      exact ⟨hys, hvy⟩
  unfold closeComponent at hok
  rw [if_neg (by simp [hidF]), if_neg (by simp), hstk] at hok
  cases ext with
  | nil =>
    rw [List.nil_append] at hok
    simp only [if_pos rfl] at hok
    have hFdom : F ∉ s2.ecs.dom := hmicro_dom F (by simp)
    have hFbase : F ∉ base := hmicro_base_disj F (by simp)
    have hdom' : (s2.ecs.insert F).dom = s2.ecs.dom ++ [F] :=
      EC.insert_dom_of_not_mem hFdom
    have hl' : (s2.ecs.insert F).l = s2.ecs.l := EC.insert_l _ _
    have hinj := hok
    injection hinj with h1
    injection h1 with hmn hs'
    subst hmn
    subst hs'
    refine ⟨rfl, rfl, rfl, rfl, ⟨[F], hdom'⟩, fun x _ => by rw [hl'], ?_⟩
    have hbaseNd : base.Nodup := by
      have := hInv.stackNodup
      rw [hstk, List.nil_append] at this
      exact (List.nodup_cons.mp this).2
    have hlF : s2.ecs.l F = F := hInv.lFresh F hFdom
    refine ⟨?_, ?_, ?_, ?_, ?_, ?_, ?_, ?_, ?_, ?_, ?_⟩
    · intro x hx
      exact hInv.stackVis x (hbase_stack x hx)
    · exact hbaseNd
    · exact hInv.idLt
    · intro x hx
      show (s2.valMap x).isSome = true ∧ x ∉ base
      rw [hdom'] at hx
      rcases List.mem_append.mp hx with h1 | h2
      · obtain ⟨hv, hns⟩ := hInv.domClosed x h1
        exact ⟨hv, fun hb => hns (hbase_stack x hb)⟩
      · rw [List.mem_singleton.mp h2]
        exact ⟨by simp [hidF], hFbase⟩
    · intro x hv hnb
      show x ∈ (s2.ecs.insert F).dom
      rw [hdom']
      by_cases hxF : x = F
      · subst hxF
        simp
      · refine List.mem_append_left _ (hInv.closedDom x hv ?_)
        rw [hstk, List.nil_append]
        simp only [List.mem_cons]
        rintro (h | h)
        · exact hxF h
        · exact hnb h
    · rw [hdom']
      exact List.Nodup.append hInv.domNodup (List.nodup_singleton F)
        (by simpa using hFdom)
    · intro x hx
      rw [hdom'] at hx
      rw [hl']
      exact hInv.lFresh x fun hd => hx (List.mem_append_left _ hd)
    · intro x hx
      rw [hdom'] at hx ⊢
      rw [hl']
      rcases List.mem_append.mp hx with h1 | h2
      · exact List.mem_append_left _ (hInv.lDom x h1)
      · rw [List.mem_singleton.mp h2, hlF]
        exact List.mem_append_right _ (by simp)
    · intro x
      rw [hl']
      exact hInv.lIdem x
    · intro x
      rw [hl']
      exact hInv.lNonDecl x
    · intro x hx y hy
      rw [hdom'] at hx ⊢
      rw [hl']
      rcases List.mem_append.mp hx with h1 | h2
      · obtain ⟨hyd, hrk⟩ := hInv.edgeInv x h1 y hy
        refine ⟨List.mem_append_left _ hyd, ?_⟩
        rcases hrk with h | h
        · exact Or.inl h
        · right
          rw [rankIn_append_left (hInv.lDom y hyd) [F],
            rankIn_append_left (hInv.lDom x h1) [F]]
          exact h
      · rw [List.mem_singleton.mp h2] at hy ⊢
        rcases hmemb F (by simp) y hy with ⟨hymem, _⟩ | ⟨hyns, hyv⟩
        · have hyF : y = F := by simpa using hymem
          subst hyF
          exact ⟨List.mem_append_right _ (by simp), Or.inl rfl⟩
        · have hyd : y ∈ s2.ecs.dom := hInv.closedDom y hyv hyns
          refine ⟨List.mem_append_left _ hyd, Or.inr ?_⟩
          rw [hlF, rankIn_append_left (hInv.lDom y hyd) [F],
            rankIn_append_right hFdom [F]]
          have h1 := rankIn_lt_length (hInv.lDom y hyd)
          simp only [rankIn]
          omega
  | cons e0 ext' =>
    have hFe : ¬ e0 = F := fun h => hFext (h ▸ List.mem_cons_self e0 ext')
    rw [popLoop_char d F (e0 :: ext') base [] none hFext] at hok
    simp only [List.cons_append, List.nil_append, if_neg hFe,
      List.reverse_nil] at hok
    simp only [List.cons_append] at hmicro_nodup hmicro_base_disj hmicro_stack hmicro_dom hmemb
    rcases hfind : (e0 :: (ext' ++ [F])).find? (fun g => !(d g)) with _ | L0
    · rw [hfind] at hok
      simp [optOr] at hok
    · rw [hfind] at hok
      have hL0mem : L0 ∈ e0 :: (ext' ++ [F]) := List.mem_of_find?_eq_some hfind
      have hdL0 : d L0 = false := by
        have := List.find?_some hfind
        simpa using this
      have hL0dom : L0 ∉ s2.ecs.dom := hmicro_dom L0 hL0mem
      have hL0l : (s2.ecs.insert L0).l L0 = L0 := by
        rw [EC.insert_l]
        exact hInv.lFresh L0 hL0dom
      have he1dom : (s2.ecs.insert L0).dom = s2.ecs.dom ++ [L0] :=
        EC.insert_dom_of_not_mem hL0dom
      simp only [optOr, hL0l] at hok
      rw [if_neg (by simp [hdL0])] at hok
      obtain ⟨e', huA, hl', hmem', ⟨dext, hdome'⟩, hnd'⟩ :=
        unionAll_spec L0 (e0 :: (ext' ++ [F])) (s2.ecs.insert L0)
          hmicro_nodup
          (by
            rw [he1dom]
            exact List.Nodup.append hInv.domNodup (List.nodup_singleton L0)
              (by simpa using hL0dom))
          hL0l
          (by
            rw [he1dom]
            exact List.mem_append_right _ (by simp))
          (by
            intro m hm hmL0
            refine ⟨?_, ?_, ?_⟩
            · rw [he1dom]
              simp only [List.mem_append, List.mem_singleton]
              rintro (h | h)
              · exact hmicro_dom m hm h
              · exact hmL0 h
            · rw [EC.insert_l]
              exact hInv.lFresh m (hmicro_dom m hm)
            · intro z hz
              rw [EC.insert_l] at hz
              by_cases hzd : z ∈ s2.ecs.dom
              · exact absurd (hz ▸ hInv.lDom z hzd) (hmicro_dom m hm)
              · rw [hInv.lFresh z hzd] at hz
                exact hz)
      rw [huA] at hok
      have hinj := hok
      injection hinj with h1
      injection h1 with hmn hs'
      subst hmn
      subst hs'
      -- abbreviations for the new partition
      have hdomiff : ∀ y, y ∈ e'.dom ↔
          y ∈ s2.ecs.dom ∨ y ∈ e0 :: (ext' ++ [F]) := by
        intro y
        rw [hmem' y, he1dom]
        constructor
        · rintro (h | h)
          · rcases List.mem_append.mp h with h1 | h1
            · exact Or.inl h1
            · exact Or.inr (by rw [List.mem_singleton.mp h1]; exact hL0mem)
          · exact Or.inr h
        · rintro (h | h)
          · exact Or.inl (List.mem_append_left _ h)
          · exact Or.inr h
      have hdompre : e'.dom = s2.ecs.dom ++ ([L0] ++ dext) := by
        rw [hdome', he1dom]
        simp
      have hlmem : ∀ x ∈ s2.ecs.dom, x ∉ e0 :: (ext' ++ [F]) := by
        intro x hx hmx
        exact hmicro_dom x hmx hx
      have hlold : ∀ x ∈ s2.ecs.dom, e'.l x = s2.ecs.l x := by
        intro x hx
        rw [hl' x, if_neg (hlmem x hx), EC.insert_l]
      have hrkold : ∀ z ∈ s2.ecs.dom, rankIn e'.dom z = rankIn s2.ecs.dom z := by
        intro z hz
        rw [hdompre]
        exact rankIn_append_left hz _
      have hrkL0 : rankIn e'.dom L0 = s2.ecs.dom.length := by
        rw [hdompre, rankIn_append_right hL0dom]
        simp [rankIn]
      have hbaseNd : base.Nodup := by
        have := hInv.stackNodup
        rw [hstk2] at this
        exact this.of_append_right
      refine ⟨rfl, rfl, rfl, rfl, ⟨[L0] ++ dext, hdompre⟩, hlold, ?_⟩
      refine ⟨?_, ?_, ?_, ?_, ?_, ?_, ?_, ?_, ?_, ?_, ?_⟩
      · intro x hx
        exact hInv.stackVis x (hbase_stack x hx)
      · exact hbaseNd
      · exact hInv.idLt
      · intro x hx
        show (s2.valMap x).isSome = true ∧ x ∉ base
        rcases (hdomiff x).mp hx with h1 | h2
        · obtain ⟨hv, hns⟩ := hInv.domClosed x h1
          exact ⟨hv, fun hb => hns (hbase_stack x hb)⟩
        · exact ⟨hInv.stackVis x (hmicro_stack x h2), hmicro_base_disj x h2⟩
      · intro x hv hnb
        show x ∈ e'.dom
        rw [hdomiff]
        by_cases hxs : x ∈ s2.stack
        · right
          rw [hstk2] at hxs
          rcases List.mem_append.mp hxs with h1 | h2
          · exact h1
          · exact absurd h2 hnb
        · exact Or.inl (hInv.closedDom x hv hxs)
      · exact hnd'
      · intro x hx
        have hx1 : x ∉ s2.ecs.dom := by
          intro h
          exact hx ((hdomiff x).mpr (Or.inl h))
        have hx2 : x ∉ e0 :: (ext' ++ [F]) := by
          intro h
          exact hx ((hdomiff x).mpr (Or.inr h))
        rw [hl' x, if_neg hx2, EC.insert_l]
        exact hInv.lFresh x hx1
      · intro x hx
        rcases (hdomiff x).mp hx with h1 | h2
        · rw [hlold x h1]
          exact (hdomiff _).mpr (Or.inl (hInv.lDom x h1))
        · rw [hl' x, if_pos h2]
          exact (hdomiff L0).mpr (Or.inr hL0mem)
      · intro x
        by_cases hx : x ∈ e0 :: (ext' ++ [F])
        · rw [hl' x, if_pos hx, hl' L0, if_pos hL0mem]
        · rw [hl' x, if_neg hx, EC.insert_l]
          by_cases hxd : x ∈ s2.ecs.dom
          · rw [hlold _ (hInv.lDom x hxd)]
            exact hInv.lIdem x
          · rw [hInv.lFresh x hxd, hl' x, if_neg hx, EC.insert_l,
              hInv.lFresh x hxd]
      · intro x hlx
        by_cases hx : x ∈ e0 :: (ext' ++ [F])
        · rw [hl' x, if_pos hx]
          exact hdL0
        · rw [hl' x, if_neg hx, EC.insert_l] at hlx ⊢
          exact hInv.lNonDecl x hlx
      · intro x hx y hy
        rcases (hdomiff x).mp hx with h1 | h2
        · obtain ⟨hyd, hrk⟩ := hInv.edgeInv x h1 y hy
          refine ⟨(hdomiff y).mpr (Or.inl hyd), ?_⟩
          rw [hlold y hyd, hlold x h1]
          rcases hrk with h | h
          · exact Or.inl h
          · right
            rw [hrkold _ (hInv.lDom y hyd), hrkold _ (hInv.lDom x h1)]
            exact h
        · have hlx : e'.l x = L0 := by
            rw [hl' x, if_pos h2]
          rcases hmemb x h2 y hy with ⟨hymem, _⟩ | ⟨hyns, hyv⟩
          · have hly : e'.l y = L0 := by
              rw [hl' y, if_pos hymem]
            exact ⟨(hdomiff y).mpr (Or.inr hymem), Or.inl (by rw [hly, hlx])⟩
          · have hyd : y ∈ s2.ecs.dom := hInv.closedDom y hyv hyns
            refine ⟨(hdomiff y).mpr (Or.inl hyd), Or.inr ?_⟩
            rw [hlx, hlold y hyd, hrkold _ (hInv.lDom y hyd), hrkL0]
            exact rankIn_lt_length (hInv.lDom y hyd)

/-! ## Unfolding equations and the push step -/

theorem tarjan_rec_zero (st : CGStore) (d : Nat → Bool) (F : Nat)
    (s : TState) : tarjan_rec st d 0 F s = .error .fuel := rfl

theorem tarjan_rec_succ (st : CGStore) (d : Nat → Bool) (fuel F : Nat)
    (s : TState) :
    tarjan_rec st d (fuel + 1) F s =
      (if (s.valMap F).isSome then .error .revisit
       else
         match tarjan_edges st d fuel (keyList (st.simpleAt F)) s.nextID
             ⟨F :: s.stack, s.nextID + 1, updO s.valMap F s.nextID, s.ecs⟩ with
         | .error e => .error e
         | .ok (Min, s2) => closeComponent d F s.nextID Min s2) := rfl

theorem tarjan_edges_zero (st : CGStore) (d : Nat → Bool) (cs : List Nat)
    (m : Nat) (s : TState) : tarjan_edges st d 0 cs m s = .error .fuel := rfl

theorem tarjan_edges_nil (st : CGStore) (d : Nat → Bool) (fuel m : Nat)
    (s : TState) : tarjan_edges st d (fuel + 1) [] m s = .ok (m, s) := rfl

theorem tarjan_edges_cons (st : CGStore) (d : Nat → Bool) (fuel m c : Nat)
    (cs : List Nat) (s : TState) :
    tarjan_edges st d (fuel + 1) (c :: cs) m s =
      (match s.valMap c with
       | none =>
         match tarjan_rec st d fuel c s with
         | .error e => .error e
         | .ok (M, s1) => tarjan_edges st d fuel cs (min m M) s1
       | some ic =>
         tarjan_edges st d fuel cs (min m (if c ∈ s.stack then ic else m)) s) :=
  rfl

theorem updO_self (m : Nat → Option Nat) (k v : Nat) :
    updO m k v k = some v := by
  simp [updO]

theorem updO_ne (m : Nat → Option Nat) (k v : Nat) {x : Nat} (h : x ≠ k) :
    updO m k v x = m x := by
  simp [updO, h]

theorem updO_isSome_of (m : Nat → Option Nat) (k v : Nat) {x : Nat}
    (h : (m x).isSome = true) : (updO m k v x).isSome = true := by
  by_cases hx : x = k <;> simp [updO, hx, h]

theorem not_stack_of_not_vis {st : CGStore} {d : Nat → Bool} {s : TState}
    (hInv : Inv st d s) {F : Nat} (hnv : (s.valMap F).isSome = false) :
    F ∉ s.stack := by
  intro h
  rw [hInv.stackVis F h] at hnv
  cases hnv

theorem push_Inv (st : CGStore) (d : Nat → Bool) (s : TState) (F : Nat)
    (hInv : Inv st d s) (hnv : (s.valMap F).isSome = false) :
    Inv st d ⟨F :: s.stack, s.nextID + 1, updO s.valMap F s.nextID, s.ecs⟩ := by
  have hFstk : F ∉ s.stack := not_stack_of_not_vis hInv hnv
  refine ⟨?_, ?_, ?_, ?_, ?_, ?_, ?_, ?_, ?_, ?_, ?_⟩
  · intro x hx
    rcases List.mem_cons.mp hx with h | h
    · subst h
      simp [updO]
    · exact updO_isSome_of _ _ _ (hInv.stackVis x h)
  · exact List.nodup_cons.mpr ⟨hFstk, hInv.stackNodup⟩
  · intro x i hxi
    replace hxi : updO s.valMap F s.nextID x = some i := hxi
    show i < s.nextID + 1
    by_cases hx : x = F
    · subst hx
      rw [updO_self] at hxi
      injection hxi with hi
      omega
    · rw [updO_ne _ _ _ hx] at hxi
      have := hInv.idLt x i hxi
      omega
  · intro x hx
    obtain ⟨hv, hns⟩ := hInv.domClosed x hx
    have hxF : x ≠ F := by
      intro e
      subst e
      rw [hv] at hnv
      cases hnv
    refine ⟨updO_isSome_of _ _ _ hv, ?_⟩
    simp only [List.mem_cons]
    rintro (h | h)
    · exact hxF h
    · exact hns h
  · intro x hv1 hns1
    replace hv1 : (updO s.valMap F s.nextID x).isSome = true := hv1
    have hxF : x ≠ F := fun e => hns1 (e ▸ List.mem_cons_self F s.stack)
    rw [updO_ne _ _ _ hxF] at hv1
    exact hInv.closedDom x hv1 fun h => hns1 (List.mem_cons_of_mem F h)
  · exact hInv.domNodup
  · exact hInv.lFresh
  · exact hInv.lDom
  · exact hInv.lIdem
  · exact hInv.lNonDecl
  · exact hInv.edgeInv

/-! ## The main specification of tarjan_rec and its callee loop -/

theorem tarjan_spec (st : CGStore) (d : Nat → Bool) : ∀ fuel : Nat,
    (∀ F s mn s', Inv st d s → (s.valMap F).isSome = false →
      tarjan_rec st d fuel F s = .ok (mn, s') →
      Inv st d s' ∧ VisitPost st s F mn s') ∧
    (∀ cs m s mn s', Inv st d s →
      tarjan_edges st d fuel cs m s = .ok (mn, s') →
      Inv st d s' ∧ EdgesPost st s cs m mn s') := by
  intro fuel
  induction fuel with
  | zero =>
    constructor
    · intro F s mn s' _ _ h
      rw [tarjan_rec_zero] at h
      simp at h
    · intro cs m s mn s' _ h
      rw [tarjan_edges_zero] at h
      simp at h
  | succ fuel ih =>
    obtain ⟨ihV, ihE⟩ := ih
    constructor
    · intro F s mn s' hInv hnv h
      rw [tarjan_rec_succ, if_neg (by simp [hnv])] at h
      rcases hE : tarjan_edges st d fuel (keyList (st.simpleAt F)) s.nextID
          ⟨F :: s.stack, s.nextID + 1, updO s.valMap F s.nextID, s.ecs⟩
        with e | p
      · rw [hE] at h
        simp at h
      · rcases p with ⟨Min, s2⟩
        rw [hE] at h
        have h2 : closeComponent d F s.nextID Min s2 = .ok (mn, s') := h
        have hInv1 := push_Inv st d s F hInv hnv
        obtain ⟨hInv2, hP⟩ := ihE (keyList (st.simpleAt F)) s.nextID
          ⟨F :: s.stack, s.nextID + 1, updO s.valMap F s.nextID, s.ecs⟩
          Min s2 hInv1 hE
        have hvis1F : ((⟨F :: s.stack, s.nextID + 1, updO s.valMap F s.nextID,
            s.ecs⟩ : TState).valMap F).isSome = true := by
          show (updO s.valMap F s.nextID F).isSome = true
          simp [updO]
        have hidF : s2.valMap F = some s.nextID := by
          rw [hP.pres F hvis1F]
          exact updO_self _ _ _
        have hchain : ∀ x, (s.valMap x).isSome = true →
            s2.valMap x = s.valMap x := by
          intro x hv
          have hxF : x ≠ F := by
            intro e
            subst e
            rw [hv] at hnv
            cases hnv
          rw [hP.pres x (by
            show (updO s.valMap F s.nextID x).isSome = true
            exact updO_isSome_of _ _ _ hv)]
          exact updO_ne _ _ _ hxF
        obtain ⟨ext1, hs2stack, hext1⟩ := hP.stackExt
        have hs2stack' : s2.stack = ext1 ++ F :: s.stack := hs2stack
        have hFext1 : F ∉ ext1 := by
          intro hmem
          have h5 := (hext1 F hmem).1
          rw [hvis1F] at h5
          cases h5
        have hextfacts : ∀ x ∈ ext1, (s.valMap x).isSome = false ∧
            (s2.valMap x).isSome = true ∧ s.nextID ≤ (s2.valMap x).getD 0 ∧
            ∀ y ∈ st.simpleAt x, (s2.valMap y).isSome = true ∧
              (y ∈ s2.stack → Min ≤ (s2.valMap y).getD 0) := by
          intro x hx
          obtain ⟨h1, h2', h3, h4⟩ := hext1 x hx
          have h3' : s.nextID + 1 ≤ (s2.valMap x).getD 0 := h3
          refine ⟨?_, h2', by omega, h4⟩
          by_cases hv : (s.valMap x).isSome = true
          · have h5 := updO_isSome_of s.valMap F s.nextID hv
            have h6 : ((⟨F :: s.stack, s.nextID + 1, updO s.valMap F s.nextID,
                s.ecs⟩ : TState).valMap x).isSome = true := h5
            rw [h6] at h1
            cases h1
          · simpa using hv
        have hprocF : ∀ y ∈ st.simpleAt F, (s2.valMap y).isSome = true ∧
            (y ∈ s2.stack → Min ≤ (s2.valMap y).getD 0) := by
          intro y hy
          exact hP.processed y (mem_keyList.mpr hy)
        by_cases hMin : Min = s.nextID
        · subst hMin
          obtain ⟨hmn, hstk', hvm', hnid', hdomE2, hlP2, hInv'⟩ :=
            closeComponent_pop_spec st d F s.nextID s2 hInv2 ext1 s.stack
              hs2stack' hFext1 hidF
              (by
                intro y hy
                have hvy := hInv.stackVis y hy
                rcases hj : s.valMap y with _ | j
                · rw [hj] at hvy
                  cases hvy
                · exact ⟨j, by rw [hchain y (by rw [hj]; rfl), hj],
                    hInv.idLt y j hj⟩)
              (by
                intro u hu y hy
                rcases List.mem_append.mp hu with h1 | h1
                · exact (hextfacts u h1).2.2.2 y hy
                · have hu' : u = F := List.mem_singleton.mp h1
                  subst hu'
                  exact hprocF y hy)
              mn s' h2
          subst hmn
          refine ⟨hInv', ?_⟩
          refine ⟨fun x hv => by rw [hvm']; exact hchain x hv,
            by rw [hvm']; exact hidF, ?_, le_refl _, Or.inl (le_refl _),
            ⟨[], by rw [hstk']; rfl, by intro x hx; cases hx⟩,
            fun _ => hstk', ?_, ?_⟩
          · rw [hnid']
            have h5 : s.nextID + 1 ≤ s2.nextID := hP.nextLe
            omega
          · obtain ⟨d1, hd1⟩ := hP.domExt
            obtain ⟨d2, hd2⟩ := hdomE2
            refine ⟨d1 ++ d2, ?_⟩
            rw [hd2]
            have hd1' : s2.ecs.dom = s.ecs.dom ++ d1 := hd1
            rw [hd1', List.append_assoc]
          · intro x hx
            obtain ⟨d1, hd1⟩ := hP.domExt
            have hd1' : s2.ecs.dom = s.ecs.dom ++ d1 := hd1
            have hx2 : x ∈ s2.ecs.dom := by
              rw [hd1']
              exact List.mem_append_left _ hx
            rw [hlP2 x hx2]
            exact hP.lPres x hx
        · rw [closeComponent_early hidF hMin] at h2
          injection h2 with h3
          injection h3 with hmn hs'
          subst hmn
          subst hs'
          refine ⟨hInv2, ?_⟩
          refine ⟨hchain, hidF, ?_, hP.mnLe, ?_, ?_, fun hmn => absurd hmn hMin,
            hP.domExt, hP.lPres⟩
          · have h5 : s.nextID + 1 ≤ s2.nextID := hP.nextLe
            omega
          · rcases hP.mnLoc with h1 | h1 | ⟨y, hy, hvy⟩
            · exact absurd h1 hMin
            · have h5 : s.nextID + 1 ≤ Min := h1
              exact Or.inl (by omega)
            · rcases List.mem_cons.mp hy with hyF | hys
              · subst hyF
                have h5 : updO s.valMap y s.nextID y = some Min := hvy
                rw [updO_self] at h5
                injection h5 with h6
                exact absurd h6.symm hMin
              · refine Or.inr ⟨y, hys, ?_⟩
                have hyF : y ≠ F :=
                  fun e => (not_stack_of_not_vis hInv hnv) (e ▸ hys)
                have h5 : updO s.valMap F s.nextID y = some Min := hvy
                rw [updO_ne _ _ _ hyF] at h5
                exact h5
          · refine ⟨ext1 ++ [F], ?_, ?_⟩
            · rw [hs2stack']
              simp
            · intro x hx
              rcases List.mem_append.mp hx with h1 | h1
              · exact hextfacts x h1
              · have hxF : x = F := List.mem_singleton.mp h1
                subst hxF
                refine ⟨hnv, by rw [hidF]; rfl, by rw [hidF]; simp, ?_⟩
                intro y hy
                exact hprocF y hy
    · intro cs m s mn s' hInv h
      cases cs with
      | nil =>
        rw [tarjan_edges_nil] at h
        injection h with h1
        injection h1 with hmn hs'
        subst hmn
        subst hs'
        refine ⟨hInv, ?_⟩
        exact
          { pres := fun x _ => rfl
            nextLe := le_refl _
            mnLe := le_refl _
            mnLoc := Or.inl rfl
            stackExt := ⟨[], rfl, by intro x hx; cases hx⟩
            processed := by intro c hc; cases hc
            domExt := ⟨[], by simp⟩
            lPres := fun x _ => rfl }
      | cons c cs' =>
        rw [tarjan_edges_cons] at h
        rcases hvc : s.valMap c with _ | ic
        · rw [hvc] at h
          rcases hV : tarjan_rec st d fuel c s with e | pv
          · rw [hV] at h
            simp at h
          · rcases pv with ⟨M, sv⟩
            rw [hV] at h
            have h2 : tarjan_edges st d fuel cs' (min m M) sv = .ok (mn, s') := h
            obtain ⟨hInvV, hPV⟩ := ihV c s M sv hInv (by rw [hvc]; rfl) hV
            obtain ⟨hInvE, hPE⟩ := ihE cs' (min m M) sv mn s' hInvV h2
            obtain ⟨extv, hsvstack, hextv⟩ := hPV.stackExt
            obtain ⟨ext2, hs'stack, hext2⟩ := hPE.stackExt
            have hmnM : mn ≤ M := le_trans hPE.mnLe (min_le_right _ _)
            refine ⟨hInvE, ?_⟩
            refine ⟨?_, ?_, le_trans hPE.mnLe (min_le_left _ _), ?_, ?_, ?_,
              ?_, ?_⟩
            · intro x hv
              have h5 : (sv.valMap x).isSome = true := by
                rw [hPV.pres x hv]
                exact hv
              rw [hPE.pres x h5, hPV.pres x hv]
            · have h5 : s.nextID < sv.nextID := hPV.nextGt
              have h6 : sv.nextID ≤ s'.nextID := hPE.nextLe
              omega
            · rcases hPE.mnLoc with h1 | h1 | ⟨y, hy, hvy⟩
              · rcases le_total m M with hmM | hmM
                · left
                  rw [h1, min_eq_left hmM]
                · have hmnM' : mn = M := by rw [h1, min_eq_right hmM]
                  rcases hPV.mnLoc with hv1 | ⟨y, hy, hvy⟩
                  · right
                    left
                    rw [hmnM']
                    exact hv1
                  · right
                    right
                    exact ⟨y, hy, by rw [hmnM']; exact hvy⟩
              · right
                left
                have h5 : s.nextID < sv.nextID := hPV.nextGt
                omega
              · rw [hsvstack] at hy
                rcases List.mem_append.mp hy with h1 | h1
                · obtain ⟨_, _, hc, _⟩ := hextv y h1
                  right
                  left
                  rw [hvy] at hc
                  simpa using hc
                · right
                  right
                  have hvyS : (s.valMap y).isSome = true := hInv.stackVis y h1
                  refine ⟨y, h1, ?_⟩
                  rw [← hPV.pres y hvyS]
                  exact hvy
            · refine ⟨ext2 ++ extv, by rw [hs'stack, hsvstack,
                List.append_assoc], ?_⟩
              intro x hx
              rcases List.mem_append.mp hx with h1 | h1
              · obtain ⟨ha, hb, hc, hd⟩ := hext2 x h1
                refine ⟨?_, hb, ?_, hd⟩
                · by_cases hv : (s.valMap x).isSome = true
                  · have h5 : (sv.valMap x).isSome = true := by
                      rw [hPV.pres x hv]
                      exact hv
                    rw [h5] at ha
                    cases ha
                  · simpa using hv
                · have h5 : s.nextID < sv.nextID := hPV.nextGt
                  have h6 : sv.nextID ≤ (s'.valMap x).getD 0 := hc
                  omega
              · obtain ⟨ha, hb, hc, hd⟩ := hextv x h1
                have hidx : s'.valMap x = sv.valMap x := hPE.pres x hb
                refine ⟨ha, by rw [hidx]; exact hb, by rw [hidx]; exact hc, ?_⟩
                intro y hy
                obtain ⟨hy1, hy2⟩ := hd y hy
                refine ⟨by rw [hPE.pres y hy1]; exact hy1, ?_⟩
                intro hys'
                have hysv : y ∈ sv.stack := by
                  rw [hs'stack] at hys'
                  rcases List.mem_append.mp hys' with hh | hh
                  · have h5 := (hext2 y hh).1
                    rw [hy1] at h5
                    cases h5
                  · exact hh
                have h6 := hy2 hysv
                rw [hPE.pres y hy1]
                omega
            · intro c0 hc0
              rcases List.mem_cons.mp hc0 with h1 | h1
              · subst h1
                have hvsvc : sv.valMap c0 = some s.nextID := hPV.idF
                have hvs'c : s'.valMap c0 = some s.nextID := by
                  rw [hPE.pres c0 (by rw [hvsvc]; rfl)]
                  exact hvsvc
                refine ⟨by rw [hvs'c]; rfl, ?_⟩
                intro _
                rw [hvs'c]
                have h8 : M ≤ s.nextID := hPV.mnLe
                simp only [Option.getD_some]
                omega
              · exact hPE.processed c0 h1
            · obtain ⟨d1, hd1⟩ := hPV.domExt
              obtain ⟨d2, hd2⟩ := hPE.domExt
              exact ⟨d1 ++ d2, by rw [hd2, hd1, List.append_assoc]⟩
            · intro x hx
              obtain ⟨d1, hd1⟩ := hPV.domExt
              have hx2 : x ∈ sv.ecs.dom := by
                rw [hd1]
                exact List.mem_append_left _ hx
              rw [hPE.lPres x hx2]
              exact hPV.lPres x hx
        · rw [hvc] at h
          have h2 : tarjan_edges st d fuel cs'
              (min m (if c ∈ s.stack then ic else m)) s = .ok (mn, s') := h
          obtain ⟨hInvE, hPE⟩ := ihE cs'
            (min m (if c ∈ s.stack then ic else m)) s mn s' hInv h2
          refine ⟨hInvE, ?_⟩
          refine ⟨hPE.pres, hPE.nextLe, le_trans hPE.mnLe (min_le_left _ _),
            ?_, hPE.stackExt, ?_, hPE.domExt, hPE.lPres⟩
          · rcases hPE.mnLoc with h1 | h1 | h1
            · by_cases hc : c ∈ s.stack
              · rw [if_pos hc] at h1
                rcases le_total m ic with hmic | hmic
                · left
                  rw [h1, min_eq_left hmic]
                · right
                  right
                  exact ⟨c, hc, by rw [hvc, h1, min_eq_right hmic]⟩
              · rw [if_neg hc, min_self] at h1
                exact Or.inl h1
            · exact Or.inr (Or.inl h1)
            · exact Or.inr (Or.inr h1)
          · intro c0 hc0
            rcases List.mem_cons.mp hc0 with h1 | h1
            · subst h1
              have hvs'c : s'.valMap c0 = some ic := by
                rw [hPE.pres c0 (by rw [hvc]; rfl)]
                exact hvc
              refine ⟨by rw [hvs'c]; rfl, ?_⟩
              intro hcs'
              rw [hvs'c]
              simp only [Option.getD_some]
              obtain ⟨ext0, hs0, hext0⟩ := hPE.stackExt
              have hcstk : c0 ∈ s.stack := by
                rw [hs0] at hcs'
                rcases List.mem_append.mp hcs' with hh | hh
                · have h5 := (hext0 c0 hh).1
                  rw [hvc] at h5
                  simp at h5
                · exact hh
              have h5 := hPE.mnLe
              rw [if_pos hcstk] at h5
              have h6 := min_le_right m ic
              omega
            · exact hPE.processed c0 h1

/-! ## The driver loop and the whole buildSCCs run -/

theorem sccDriver_nil (st : CGStore) (d : Nat → Bool) (fuel : Nat)
    (s : TState) : sccDriver st d fuel [] s = .ok s := rfl

theorem sccDriver_cons (st : CGStore) (d : Nat → Bool) (fuel k : Nat)
    (ks : List Nat) (s : TState) :
    sccDriver st d fuel (k :: ks) s =
      (if (s.valMap k).isSome then sccDriver st d fuel ks s
       else
         match tarjan_rec st d fuel k s with
         | .error e => .error e
         | .ok (_, s') => sccDriver st d fuel ks s') := rfl

theorem init_Inv (st : CGStore) (d : Nat → Bool) :
    Inv st d ⟨[], 1, fun _ => none, EC.empty⟩ := by
  refine ⟨?_, ?_, ?_, ?_, ?_, ?_, ?_, ?_, ?_, ?_, ?_⟩
  · intro x hx
    cases hx
  · exact List.nodup_nil
  · intro x i h
    exact absurd h (by simp)
  · intro x hx
    cases hx
  · intro x hv
    exact absurd hv (by simp)
  · exact List.nodup_nil
  · intro x _
    rfl
  · intro x hx
    cases hx
  · intro x
    rfl
  · intro x hlx
    exact absurd rfl hlx
  · intro x hx
    cases hx

theorem sccDriver_spec (st : CGStore) (d : Nat → Bool) (fuel : Nat) :
    ∀ (ks : List Nat) (s sf : TState), Inv st d s → s.stack = [] →
      sccDriver st d fuel ks s = .ok sf →
      Inv st d sf ∧ sf.stack = [] ∧
        (∀ x, (s.valMap x).isSome = true → (sf.valMap x).isSome = true) ∧
        (∀ k ∈ ks, (sf.valMap k).isSome = true) := by
  intro ks
  induction ks with
  | nil =>
    intro s sf hInv hstk h
    rw [sccDriver_nil] at h
    injection h with h3
    subst h3
    exact ⟨hInv, hstk, fun x hv => hv, by intro k hk; cases hk⟩
  | cons k ks ih =>
    intro s sf hInv hstk h
    rw [sccDriver_cons] at h
    by_cases hvk : (s.valMap k).isSome = true
    · rw [if_pos hvk] at h
      obtain ⟨hI, hs, hpres, hks⟩ := ih s sf hInv hstk h
      refine ⟨hI, hs, hpres, ?_⟩
      intro k0 hk0
      rcases List.mem_cons.mp hk0 with h1 | h1
      · subst h1
        exact hpres k0 hvk
      · exact hks k0 h1
    · rw [if_neg hvk] at h
      rcases hV : tarjan_rec st d fuel k s with e | p
      · rw [hV] at h
        simp at h
      · rcases p with ⟨M, sv⟩
        rw [hV] at h
        have h2 : sccDriver st d fuel ks sv = .ok sf := h
        obtain ⟨hInvV, hPV⟩ :=
          (tarjan_spec st d fuel).1 k s M sv hInv (by simpa using hvk) hV
        have hM : M = s.nextID := by
          rcases hPV.mnLoc with h1 | ⟨y, hy, _⟩
          · have h3 := hPV.mnLe
            omega
          · rw [hstk] at hy
            cases hy
        have hsv : sv.stack = [] := by
          rw [hPV.popRestores hM, hstk]
        obtain ⟨hI, hs, hpres, hks⟩ := ih sv sf hInvV hsv h2
        refine ⟨hI, hs, ?_, ?_⟩
        · intro x hv
          apply hpres
          rw [hPV.pres x hv]
          exact hv
        · intro k0 hk0
          rcases List.mem_cons.mp hk0 with h1 | h1
          · subst h1
            apply hpres
            rw [hPV.idF]
            rfl
          · exact hks k0 h1

theorem buildSCCs_ok_facts (st : CGStore) (d : Nat → Bool) {stc : CGStore}
    {e : EC} (h : DSCallGraph.buildSCCs st d = .ok (stc, e)) :
    ∃ sf : TState, Inv st d sf ∧ sf.stack = [] ∧
      (∀ k ∈ st.simpleKeys, k ∈ sf.ecs.dom) ∧
      e = sf.ecs ∧ stc = DSCallGraph.removeECFunctions st sf.ecs := by
  unfold DSCallGraph.buildSCCs at h
  rcases hd : sccDriver st d (sccFuel st) (keyList st.simpleKeys)
      ⟨[], 1, fun _ => none, EC.empty⟩ with e' | sf
  · rw [hd] at h
    simp at h
  · rw [hd] at h
    have h2 : (Except.ok (DSCallGraph.removeECFunctions st sf.ecs, sf.ecs) :
        Except TErr (CGStore × EC)) = .ok (stc, e) := h
    injection h2 with h3
    injection h3 with hst he
    obtain ⟨hI, hs, _, hks⟩ := sccDriver_spec st d (sccFuel st)
      (keyList st.simpleKeys) _ sf (init_Inv st d) rfl hd
    refine ⟨sf, hI, hs, ?_, he.symm, hst.symm⟩
    intro k hk
    have hv := hks k (mem_keyList.mpr hk)
    exact hI.closedDom k hv (by rw [hs]; exact List.not_mem_nil k)

/-! ## mergePhase characterization and acyclicity of the collapsed graph -/

theorem mem_mget {K : Finset Nat} {V : Nat → Finset Nat} {k x : Nat}
    (h : x ∈ mget K V k) : k ∈ K ∧ x ∈ V k := by
  unfold mget at h
  by_cases hk : k ∈ K
  · rw [if_pos hk] at h
    exact ⟨hk, h⟩
  · rw [if_neg hk] at h
    exact absurd h (Finset.not_mem_empty x)

theorem mergePhase_nil (l : Nat → Nat) (K : Finset Nat)
    (V : Nat → Finset Nat) : mergePhase l [] K V = (K, V) := rfl

theorem mergePhase_cons (l : Nat → Nat) (k : Nat) (ks : List Nat)
    (K : Finset Nat) (V : Nat → Finset Nat) :
    mergePhase l (k :: ks) K V =
      (if l k = k then mergePhase l ks K V
       else mergePhase l ks (Insert.insert (l k) (K.erase k))
         (upd V (l k) (mget K V (l k) ∪ mget K V k))) := rfl

theorem mergePhase_sub (l : Nat → Nat) (hIdem : ∀ x, l (l x) = l x) :
    ∀ (ks : List Nat) (K : Finset Nat) (V : Nat → Finset Nat) (a x : Nat),
      x ∈ mget (mergePhase l ks K V).1 (mergePhase l ks K V).2 a →
      ∃ k, (k ∈ K ∨ k ∈ ks) ∧ (l k = a ∨ k = a) ∧ x ∈ mget K V k := by
  intro ks
  induction ks with
  | nil =>
    intro K V a x hx
    rw [mergePhase_nil] at hx
    exact ⟨a, Or.inl (mem_mget hx).1, Or.inr rfl, hx⟩
  | cons k0 ks ih =>
    intro K V a x hx
    rw [mergePhase_cons] at hx
    by_cases hlk : l k0 = k0
    · rw [if_pos hlk] at hx
      obtain ⟨k, hk1, hk2, hk3⟩ := ih K V a x hx
      refine ⟨k, ?_, hk2, hk3⟩
      rcases hk1 with h | h
      · exact Or.inl h
      · exact Or.inr (List.mem_cons_of_mem _ h)
    · rw [if_neg hlk] at hx
      obtain ⟨k', hk'1, hk'2, hx'⟩ := ih _ _ a x hx
      by_cases hk'lk : k' = l k0
      · have h1 : l k0 ∈ Insert.insert (l k0) (K.erase k0) :=
          Finset.mem_insert_self _ _
        rw [hk'lk] at hx'
        have hx2 : x ∈ mget K V (l k0) ∪ mget K V k0 := by
          unfold mget at hx'
          rw [if_pos h1, upd_apply_self] at hx'
          exact hx'
        have hlka : l k0 = a := by
          rcases hk'2 with h | h
          · rw [hk'lk, hIdem] at h
            exact h
          · rw [hk'lk] at h
            exact h
        rcases Finset.mem_union.mp hx2 with h | h
        · exact ⟨l k0, Or.inl (mem_mget h).1, Or.inr hlka, h⟩
        · exact ⟨k0, Or.inr (List.mem_cons_self _ _), Or.inl hlka, h⟩
      · have hk'K' : k' ∈ Insert.insert (l k0) (K.erase k0) :=
          (mem_mget hx').1
        have hk'er : k' ∈ K.erase k0 := by
          rcases Finset.mem_insert.mp hk'K' with h | h
          · exact absurd h hk'lk
          · exact h
        have hk'K : k' ∈ K := Finset.mem_of_mem_erase hk'er
        have hxK : x ∈ mget K V k' := by
          unfold mget at hx' ⊢
          rw [if_pos hk'K', upd_apply_ne _ _ _ _ hk'lk] at hx'
          rw [if_pos hk'K]
          exact hx'
        refine ⟨k', ?_, hk'2, hxK⟩
        rcases hk'1 with h | h
        · exact Or.inl hk'K
        · exact Or.inr (List.mem_cons_of_mem _ h)

theorem mergePhase_keys_leader (l : Nat → Nat) (hIdem : ∀ x, l (l x) = l x) :
    ∀ (ks : List Nat) (K : Finset Nat) (V : Nat → Finset Nat),
      (∀ a ∈ K, l a = a ∨ a ∈ ks) →
      ∀ a ∈ (mergePhase l ks K V).1, l a = a := by
  intro ks
  induction ks with
  | nil =>
    intro K V hK a ha
    rw [mergePhase_nil] at ha
    rcases hK a ha with h | h
    · exact h
    · cases h
  | cons k0 ks ih =>
    intro K V hK a ha
    rw [mergePhase_cons] at ha
    by_cases hlk : l k0 = k0
    · rw [if_pos hlk] at ha
      refine ih K V ?_ a ha
      intro a' ha'
      rcases hK a' ha' with h | h
      · exact Or.inl h
      · rcases List.mem_cons.mp h with h1 | h1
        · subst h1
          exact Or.inl hlk
        · exact Or.inr h1
    · rw [if_neg hlk] at ha
      refine ih _ _ ?_ a ha
      intro a' ha'
      rcases Finset.mem_insert.mp ha' with h | h
      · subst h
        exact Or.inl (hIdem k0)
      · rcases hK a' (Finset.mem_of_mem_erase h) with h1 | h1
        · exact Or.inl h1
        · rcases List.mem_cons.mp h1 with h2 | h2
          · exact absurd h2 (Finset.ne_of_mem_erase h)
          · exact Or.inr h2

theorem removeECFunctions_simpleAt (st : CGStore) (e : EC) (a : Nat) :
    (DSCallGraph.removeECFunctions st e).simpleAt a =
      (if a ∈ (mergePhase e.l (keyList st.simpleKeys) st.simpleKeys
          st.simpleVal).1
       then (removeECs ((mergePhase e.l (keyList st.simpleKeys) st.simpleKeys
          st.simpleVal).2 a) e).erase a
       else ∅) := by
  show mget (mergePhase e.l (keyList st.simpleKeys) st.simpleKeys
      st.simpleVal).1
    (fun k => if k ∈ (mergePhase e.l (keyList st.simpleKeys) st.simpleKeys
        st.simpleVal).1
      then (removeECs ((mergePhase e.l (keyList st.simpleKeys) st.simpleKeys
        st.simpleVal).2 k) e).erase k
      else (mergePhase e.l (keyList st.simpleKeys) st.simpleKeys
        st.simpleVal).2 k) a = _
  unfold mget
  by_cases h : a ∈ (mergePhase e.l (keyList st.simpleKeys) st.simpleKeys
      st.simpleVal).1
  · simp only [if_pos h]
  · simp only [if_neg h]

theorem collapsed_edge_rank (st : CGStore) (d : Nat → Bool) (sf : TState)
    (hInv : Inv st d sf) (hkeys : ∀ k ∈ st.simpleKeys, k ∈ sf.ecs.dom)
    (a b : Nat)
    (hb : b ∈ (DSCallGraph.removeECFunctions st sf.ecs).simpleAt a) :
    rankIn sf.ecs.dom b < rankIn sf.ecs.dom a := by
  rw [removeECFunctions_simpleAt] at hb
  by_cases haK : a ∈ (mergePhase sf.ecs.l (keyList st.simpleKeys)
      st.simpleKeys st.simpleVal).1
  case neg =>
    rw [if_neg haK] at hb
    exact absurd hb (Finset.not_mem_empty b)
  rw [if_pos haK] at hb
  have hbv := hb
  have hba : b ≠ a := Finset.ne_of_mem_erase hbv
  have hbim : b ∈ removeECs
      ((mergePhase sf.ecs.l (keyList st.simpleKeys) st.simpleKeys
        st.simpleVal).2 a) sf.ecs := Finset.mem_of_mem_erase hbv
  obtain ⟨y, hy, hly⟩ := Finset.mem_image.mp hbim
  have hy' : y ∈ mget (mergePhase sf.ecs.l (keyList st.simpleKeys)
      st.simpleKeys st.simpleVal).1
      (mergePhase sf.ecs.l (keyList st.simpleKeys) st.simpleKeys
        st.simpleVal).2 a := by
    unfold mget
    rw [if_pos haK]
    exact hy
  obtain ⟨k, hk1, hk2, hyk⟩ :=
    mergePhase_sub sf.ecs.l hInv.lIdem (keyList st.simpleKeys)
      st.simpleKeys st.simpleVal a y hy'
  have hkK : k ∈ st.simpleKeys := by
    rcases hk1 with h | h
    · exact h
    · exact mem_keyList.mp h
  have hla : sf.ecs.l a = a :=
    mergePhase_keys_leader sf.ecs.l hInv.lIdem (keyList st.simpleKeys)
      st.simpleKeys st.simpleVal (fun a' ha' => Or.inr (mem_keyList.mpr ha'))
      a haK
  have hlka : sf.ecs.l k = a := by
    rcases hk2 with h | h
    · exact h
    · rw [h, hla]
  have hkdom : k ∈ sf.ecs.dom := hkeys k hkK
  obtain ⟨hydom, hrk⟩ := hInv.edgeInv k hkdom y hyk
  rcases hrk with h | h
  · rw [← hly, h, hlka] at hba
    exact absurd rfl hba
  · rw [← hly]
    rw [hlka] at h
    exact h

theorem transGen_lt {R : Nat → Nat → Prop} {f : Nat → Nat}
    (h : ∀ a b, R a b → f b < f a) :
    ∀ a b, Relation.TransGen R a b → f b < f a := by
  intro a b hab
  induction hab with
  | single h1 => exact h _ _ h1
  | tail _ h2 ih => exact lt_trans (h _ _ h2) ih

/-! ## No run ever trips the revisit assertion -/

theorem unionAll_ne_revisit (L : Nat) :
    ∀ (ms : List Nat) (e : EC), unionAll L ms e ≠ .error .revisit := by
  intro ms
  induction ms with
  | nil =>
    intro e h
    simp [unionAll] at h
  | cons m ms ih =>
    intro e h
    rw [show unionAll L (m :: ms) e =
        (if (EC.union (e.insert m) L ((e.insert m).l m)).l L = L ∧
            (EC.union (e.insert m) L ((e.insert m).l m)).l
              ((e.insert m).l m) = L
         then unionAll L ms (EC.union (e.insert m) L ((e.insert m).l m))
         else .error .sccAssert) from rfl] at h
    split at h
    · exact ih _ h
    · simp at h

theorem closeComponent_ne_revisit (d : Nat → Bool) (F myID Min : Nat)
    (s2 : TState) : closeComponent d F myID Min s2 ≠ .error .revisit := by
  intro h
  unfold closeComponent at h
  by_cases h1 : s2.valMap F ≠ some myID
  · rw [if_pos h1] at h
    simp at h
  · rw [if_neg h1] at h
    by_cases h2 : Min ≠ myID
    · rw [if_pos h2] at h
      simp at h
    · rw [if_neg h2] at h
      rcases hstk : s2.stack with _ | ⟨top, rest⟩
      · rw [hstk] at h
        simp at h
      · rw [hstk] at h
        by_cases h3 : top = F
        · simp only [if_pos h3] at h
          simp at h
        · simp only [if_neg h3] at h
          rcases hpl : popLoop d F (top :: rest) [] none with ⟨micro, rest2, ldr⟩
          rw [hpl] at h
          rcases ldr with _ | L0
          · simp at h
          · simp only [] at h
            by_cases h4 : d ((s2.ecs.insert L0).l L0) = true
            · rw [if_pos h4] at h
              simp at h
            · rw [if_neg h4] at h
              rcases huA : unionAll ((s2.ecs.insert L0).l L0) micro
                  (s2.ecs.insert L0) with e' | e2
              · rw [huA] at h
                simp only [] at h
                injection h with h5
                subst h5
                exact unionAll_ne_revisit _ _ _ huA
              · rw [huA] at h
                simp at h

theorem tarjan_ne_revisit (st : CGStore) (d : Nat → Bool) : ∀ fuel : Nat,
    (∀ F s, (s.valMap F).isSome = false →
      tarjan_rec st d fuel F s ≠ .error .revisit) ∧
    (∀ cs m s, tarjan_edges st d fuel cs m s ≠ .error .revisit) := by
  intro fuel
  induction fuel with
  | zero =>
    constructor
    · intro F s _ h
      rw [tarjan_rec_zero] at h
      simp at h
    · intro cs m s h
      rw [tarjan_edges_zero] at h
      simp at h
  | succ fuel ih =>
    obtain ⟨ihV, ihE⟩ := ih
    constructor
    · intro F s hnv h
      rw [tarjan_rec_succ, if_neg (by simp [hnv])] at h
      rcases hE : tarjan_edges st d fuel (keyList (st.simpleAt F)) s.nextID
          ⟨F :: s.stack, s.nextID + 1, updO s.valMap F s.nextID, s.ecs⟩
        with e | p
      · rw [hE] at h
        injection h with h2
        subst h2
        exact ihE _ _ _ hE
      · rcases p with ⟨Min, s2⟩
        rw [hE] at h
        exact closeComponent_ne_revisit d F s.nextID Min s2 h
    · intro cs m s h
      cases cs with
      | nil =>
        rw [tarjan_edges_nil] at h
        simp at h
      | cons c cs' =>
        rw [tarjan_edges_cons] at h
        rcases hvc : s.valMap c with _ | ic
        · rw [hvc] at h
          rcases hV : tarjan_rec st d fuel c s with e | p
          · rw [hV] at h
            injection h with h2
            subst h2
            exact ihV c s (by rw [hvc]; rfl) hV
          · rcases p with ⟨M, sv⟩
            rw [hV] at h
            exact ihE _ _ _ h
        · rw [hvc] at h
          exact ihE _ _ _ h

theorem sccDriver_ne_revisit (st : CGStore) (d : Nat → Bool) (fuel : Nat) :
    ∀ (ks : List Nat) (s : TState),
      sccDriver st d fuel ks s ≠ .error .revisit := by
  intro ks
  induction ks with
  | nil =>
    intro s h
    rw [sccDriver_nil] at h
    simp at h
  | cons k ks ih =>
    intro s h
    rw [sccDriver_cons] at h
    by_cases hvk : (s.valMap k).isSome = true
    · rw [if_pos hvk] at h
      exact ih _ h
    · rw [if_neg hvk] at h
      rcases hV : tarjan_rec st d fuel k s with e | p
      · rw [hV] at h
        injection h with h2
        subst h2
        exact (tarjan_ne_revisit st d fuel).1 k s (by simpa using hvk) hV
      · rcases p with ⟨M, sv⟩
        rw [hV] at h
        exact ih _ h

theorem closeComponent_valMap {d : Nat → Bool} {F myID Min : Nat}
    {s2 : TState} {mn : Nat} {s' : TState}
    (h : closeComponent d F myID Min s2 = .ok (mn, s')) :
    s'.valMap = s2.valMap := by
  unfold closeComponent at h
  by_cases h1 : s2.valMap F ≠ some myID
  · rw [if_pos h1] at h
    simp at h
  · rw [if_neg h1] at h
    by_cases h2 : Min ≠ myID
    · rw [if_pos h2] at h
      injection h with h3
      injection h3 with _ h4
      rw [← h4]
    · rw [if_neg h2] at h
      rcases hstk : s2.stack with _ | ⟨top, rest⟩
      · rw [hstk] at h
        simp at h
      · rw [hstk] at h
        by_cases h3 : top = F
        · simp only [if_pos h3] at h
          injection h with h4
          injection h4 with _ h5
          rw [← h5]
        · simp only [if_neg h3] at h
          rcases hpl : popLoop d F (top :: rest) [] none with ⟨micro, rest2, ldr⟩
          rw [hpl] at h
          rcases ldr with _ | L0
          · simp at h
          · simp only [] at h
            by_cases h4 : d ((s2.ecs.insert L0).l L0) = true
            · rw [if_pos h4] at h
              simp at h
            · rw [if_neg h4] at h
              rcases huA : unionAll ((s2.ecs.insert L0).l L0) micro
                  (s2.ecs.insert L0) with e' | e2
              · rw [huA] at h
                simp at h
              · rw [huA] at h
                simp only [] at h
                injection h with h4
                injection h4 with _ h5
                rw [← h5]

theorem tarjan_pres (st : CGStore) (d : Nat → Bool) : ∀ fuel : Nat,
    (∀ F s mn s', tarjan_rec st d fuel F s = .ok (mn, s') →
      ∀ x i, s.valMap x = some i → s'.valMap x = some i) ∧
    (∀ cs m s mn s', tarjan_edges st d fuel cs m s = .ok (mn, s') →
      ∀ x i, s.valMap x = some i → s'.valMap x = some i) := by
  intro fuel
  induction fuel with
  | zero =>
    constructor
    · intro F s mn s' h
      rw [tarjan_rec_zero] at h
      simp at h
    · intro cs m s mn s' h
      rw [tarjan_edges_zero] at h
      simp at h
  | succ fuel ih =>
    obtain ⟨ihV, ihE⟩ := ih
    constructor
    · intro F s mn s' h x i hx
      rw [tarjan_rec_succ] at h
      by_cases hv : (s.valMap F).isSome = true
      · rw [if_pos hv] at h
        simp at h
      · rw [if_neg hv] at h
        rcases hE : tarjan_edges st d fuel (keyList (st.simpleAt F)) s.nextID
            ⟨F :: s.stack, s.nextID + 1, updO s.valMap F s.nextID, s.ecs⟩
          with e | p
        · rw [hE] at h
          simp at h
        · rcases p with ⟨Min, s2⟩
          rw [hE] at h
          have h2 : closeComponent d F s.nextID Min s2 = .ok (mn, s') := h
          have hxF : x ≠ F := by
            intro hh
            subst hh
            rw [hx] at hv
            simp at hv
          have h3 : updO s.valMap F s.nextID x = some i := by
            rw [updO_ne _ _ _ hxF]
            exact hx
          have h4 := ihE _ _ _ _ _ hE x i h3
          rw [closeComponent_valMap h2]
          exact h4
    · intro cs m s mn s' h x i hx
      cases cs with
      | nil =>
        rw [tarjan_edges_nil] at h
        injection h with h1
        injection h1 with _ h2
        rw [← h2]
        exact hx
      | cons c cs' =>
        rw [tarjan_edges_cons] at h
        rcases hvc : s.valMap c with _ | ic
        · rw [hvc] at h
          rcases hV : tarjan_rec st d fuel c s with e | p
          · rw [hV] at h
            simp at h
          · rcases p with ⟨M, sv⟩
            rw [hV] at h
            exact ihE _ _ _ _ _ h x i (ihV _ _ _ _ hV x i hx)
        · rw [hvc] at h
          exact ihE _ _ _ _ _ h x i hx

/-! ## C2, C5, C9 -/

/-- C2: after a completed buildSCCs run (SCC detection followed by the
collapse pass), the collapsed simple callee graph is acyclic: no node is
reachable from itself in one or more steps along collapsed simple-callee
edges. -/
theorem buildSCCs_condensate_acyclic (st : CGStore) (d : Nat → Bool)
    (st' : CGStore) (e : EC)
    (h : DSCallGraph.buildSCCs st d = .ok (st', e)) (L : Nat) :
    ¬ Relation.TransGen (fun a b => b ∈ st'.simpleAt a) L L := by
  obtain ⟨sf, hInv, hstk, hkeys, he, hst'⟩ := buildSCCs_ok_facts st d h
  intro hcyc
  have hedge : ∀ a b, (fun a b => b ∈ st'.simpleAt a) a b →
      rankIn sf.ecs.dom b < rankIn sf.ecs.dom a := by
    intro a b hR
    rw [hst'] at hR
    exact collapsed_edge_rank st d sf hInv hkeys a b hR
  exact absurd (transGen_lt hedge L L hcyc) (lt_irrefl _)

/-- C2 witness: the acyclicity theorem applied to the concrete chain store. -/
theorem buildSCCs_condensate_acyclic_witness :
    ¬ Relation.TransGen (fun a b => b ∈ exChainRun.1.simpleAt a) 0 0 :=
  buildSCCs_condensate_acyclic exChain exD exChainRun.1 exChainRun.2
    (by rfl) 0

/-- C5: the leader candidate computed by the pop loop is the first node in
pop order that is not declaration-only, and in every completed buildSCCs
run, every equivalence class with at least two members has a leader with a
body (declaration flag false). -/
theorem scc_leader_selection :
    (∀ (d : Nat → Bool) (F : Nat) (ext base micro rest : List Nat)
        (ldr : Option Nat), F ∉ ext →
        popLoop d F (ext ++ F :: base) [] none = (micro, rest, ldr) →
        ldr = micro.find? (fun g => !(d g))) ∧
    (∀ (st : CGStore) (d : Nat → Bool) (st' : CGStore) (e : EC),
        DSCallGraph.buildSCCs st d = .ok (st', e) →
        ∀ x y, x ∈ e.dom → y ∈ e.dom → x ≠ y → e.l x = e.l y →
          d (e.l x) = false) := by
  constructor
  · intro d F ext base micro rest ldr hF h
    rw [popLoop_char d F ext base [] none hF] at h
    injection h with h1 h2
    injection h2 with h3 h4
    rw [← h4, ← h1]
    simp [optOr]
  · intro st d st' e h x y hx hy hxy hlxy
    obtain ⟨sf, hInv, _, _, he, _⟩ := buildSCCs_ok_facts st d h
    subst he
    by_cases hxl : sf.ecs.l x = x
    · have h5 : sf.ecs.l y ≠ y := by
        rw [← hlxy, hxl]
        exact hxy
      have h6 := hInv.lNonDecl y h5
      rw [← hlxy] at h6
      exact h6
    · exact hInv.lNonDecl x hxl

/-- C5 witness: in the mutual-recursion example with procedure 2
declaration-only, the class of 1 and 2 has a body-bearing leader. -/
theorem scc_leader_selection_witness : exDeclTwo (exTwoRun.2.l 1) = false :=
  scc_leader_selection.2 exTwo exDeclTwo exTwoRun.1 exTwoRun.2 (by rfl) 1 2
    (by decide) (by decide) (by decide) (by decide)

/-- C9: buildSCCs never trips the revisit assertion of tarjan_rec — the
driver and the callee loop both test membership in ValMap before calling it
— and a completed tarjan_rec call preserves every existing discovery index,
so each function is assigned exactly one. -/
theorem buildSCCs_no_revisit :
    (∀ (st : CGStore) (d : Nat → Bool),
        DSCallGraph.buildSCCs st d ≠ .error .revisit) ∧
    (∀ (st : CGStore) (d : Nat → Bool) (fuel F : Nat) (s : TState)
        (mn : Nat) (s' : TState),
        tarjan_rec st d fuel F s = .ok (mn, s') →
        ∀ x i, s.valMap x = some i → s'.valMap x = some i) := by
  constructor
  · intro st d h
    unfold DSCallGraph.buildSCCs at h
    rcases hd : sccDriver st d (sccFuel st) (keyList st.simpleKeys)
        ⟨[], 1, fun _ => none, EC.empty⟩ with e' | sf
    · rw [hd] at h
      injection h with h2
      subst h2
      exact sccDriver_ne_revisit st d (sccFuel st) _ _ hd
    · rw [hd] at h
      simp at h
  · intro st d fuel F s mn s' h x i hx
    exact (tarjan_pres st d fuel).1 F s mn s' h x i hx

/-- C9 witness: a concrete completed tarjan_rec run preserving a
pre-existing discovery index. -/
theorem buildSCCs_no_revisit_witness : exTarjanRun.2.valMap 9 = some 1 :=
  buildSCCs_no_revisit.2 exChain exD 20 0 exState9 exTarjanRun.1
    exTarjanRun.2 (by rfl) 9 1 (by rfl)

end PoolAlloc
